import Mathlib

/-!
Verification of the document chunking / indexing / multi-pass retrieval core
of the ca_ai backend (src/backend/services/{chunking,indexing,search,cache}.py).

Strings are modelled as `List Char`; scores as `ℚ` (exact arithmetic in place
of IEEE doubles — none of the verified pipeline properties depend on rounding);
cosine similarity, which is genuinely numerical, is modelled over `ℝ`
separately.  Machine 32-bit floats are modelled by their bit patterns
(`Nat < 2^32`), which is exactly what the byte-level round-trip claims are
about.
-/

namespace CaAi

abbrev Str := List Char

/-- Python whitespace (`str.strip`, `\s`), ASCII range. -/
def isWS (c : Char) : Bool :=
  c == ' ' || c == '\t' || c == '\n' || c == '\r' || c == '\x0b' || c == '\x0c'

/-- `str.lstrip()`. -/
def pyLstrip (s : Str) : Str := s.dropWhile isWS

/-- `str.rstrip()`: remove the trailing whitespace run. -/
def pyRstrip : Str → Str
  | [] => []
  | c :: s =>
    match pyRstrip s with
    | [] => if isWS c then [] else [c]
    | r => c :: r

/-- `str.strip()`. -/
def pyStrip (s : Str) : Str := pyRstrip (pyLstrip s)

/-- Python `s[-n:]` for `n > 0`: the last `min n (length s)` characters. -/
def takeRight (n : Nat) (s : Str) : Str := s.drop (s.length - n)

/-- `pat.isPrefixOf s` as a plain recursive Boolean check. -/
def startsWith : Str → Str → Bool
  | _, [] => true
  | [], _ :: _ => false
  | c :: s, p :: ps => c == p && startsWith s ps

/-- The non-whitespace content of a string, in order. -/
def nonWS (s : Str) : Str := s.filter (fun c => !(isWS c))

/-!
## TextChunker (src/backend/services/chunking.py)
-/

/-- Helper for `_split_by_separators`: Python `part.split(separator)` with the
separator re-appended to every piece but the last (the source rejoins it).
`acc` holds the current piece reversed. -/
def splitKeepSepGo (sep : Str) (acc : Str) : Str → List Str
  | [] => [acc.reverse]
  | c :: rest =>
    if startsWith (c :: rest) sep then
      (acc.reverse ++ sep) :: splitKeepSepGo sep [] (rest.drop (sep.length - 1))
    else
      splitKeepSepGo sep (c :: acc) rest
termination_by s => s.length
decreasing_by
  · exact Nat.lt_succ_of_le ((List.drop_sublist _ _).length_le)
  · exact Nat.lt_succ_self _

def splitKeepSep (sep : Str) (s : Str) : List Str := splitKeepSepGo sep [] s

/-- The separator priority list of `TextChunker.__init__` (the empty-string
fallback is skipped by the loop in `_split_by_separators`). -/
def pySeparators : List Str := [['\n', '\n'], ['\n'], ['.', ' '], [' ']]

/-- `TextChunker._split_by_separators`. -/
def splitBySeparators (text : Str) : List Str :=
  let parts := pySeparators.foldl (fun parts sep => parts.flatMap (splitKeepSep sep)) [text]
  parts.filter (fun p => !(pyStrip p).isEmpty)

/-- `[.!?]` of the sentence-split regex in `_split_large_text`. -/
def isSentEnd (c : Char) : Bool := c == '.' || c == '!' || c == '?'

/-- Whether a string starts with a whitespace character (`\s+` needs at least
one). -/
def hasWSHead : Str → Bool
  | [] => false
  | r :: _ => isWS r

/-- `re.split(r'([.!?]\s+)', text)`: the pieces interleaved with the captured
separators (a separator is a sentence-end character followed by the maximal
whitespace run).  `acc` holds the current piece reversed. -/
def splitSentencesGo (acc : Str) : Str → List Str
  | [] => [acc.reverse]
  | c :: rest =>
    if isSentEnd c && hasWSHead rest then
      acc.reverse :: (c :: rest.takeWhile isWS) :: splitSentencesGo [] (rest.dropWhile isWS)
    else
      splitSentencesGo (c :: acc) rest
termination_by s => s.length
decreasing_by
  · exact Nat.lt_succ_of_le ((List.dropWhile_sublist _).length_le)
  · exact Nat.lt_succ_self _

def splitSentences (s : Str) : List Str := splitSentencesGo [] s

/-- A chunk as produced by `TextChunker._create_chunk` (the metadata dict is
passed through unchanged and is irrelevant to the chunking claims). -/
structure Chunk where
  text : Str
  chunkIndex : Nat
  length : Nat
deriving DecidableEq, Repr

def createChunk (text : Str) (idx : Nat) : Chunk := ⟨text, idx, text.length⟩

/-- The loop of `TextChunker._split_large_text`, with the accumulated chunk
list turned into the returned list (the Python code tracks
`current_length == len(current_chunk)` as a separate variable; the two are
always equal, so only `cur` is carried here). -/
def splitLargeLoop (cs co : Nat) (idx : Nat) (cur : Str) : List Str → List Chunk
  | [] => if !(pyStrip cur).isEmpty then [createChunk (pyStrip cur) idx] else []
  | s :: rest =>
    if cur.length + s.length > cs ∧ cur ≠ [] then
      createChunk (pyStrip cur) idx ::
        splitLargeLoop cs co (idx + 1) (if co > 0 then takeRight co cur ++ s else s) rest
    else
      splitLargeLoop cs co idx (cur ++ s) rest

/-- `TextChunker._split_large_text`. -/
def splitLargeText (cs co : Nat) (text : Str) (startIndex : Nat) : List Chunk :=
  splitLargeLoop cs co startIndex [] (splitSentences text)

/-- The main loop of `TextChunker.split_text` over the separator-split parts. -/
def splitTextLoop (cs co : Nat) (idx : Nat) (cur : Str) : List Str → List Chunk
  | [] => if !(pyStrip cur).isEmpty then [createChunk (pyStrip cur) idx] else []
  | p :: rest =>
    if p.length > cs then
      -- part larger than chunk_size: flush the current chunk, then recurse
      -- into _split_large_text
      let flushed := if cur ≠ [] then [createChunk (pyStrip cur) idx] else []
      let idx1 := idx + flushed.length
      let sub := splitLargeText cs co p idx1
      flushed ++ sub ++ splitTextLoop cs co (idx1 + sub.length) [] rest
    else if cur.length + p.length > cs ∧ cur ≠ [] then
      createChunk (pyStrip cur) idx ::
        splitTextLoop cs co (idx + 1)
          (if co > 0 ∧ cur ≠ [] then takeRight co cur ++ p else p) rest
    else
      splitTextLoop cs co idx (cur ++ p) rest

/-- `TextChunker.split_text` (chunk_size `cs`, chunk_overlap `co`). -/
def splitText (cs co : Nat) (text : Str) : List Chunk :=
  if (pyStrip text).isEmpty then []
  else splitTextLoop cs co 0 [] (splitBySeparators text)

/-!
### Whitespace / strip lemmas
-/

theorem nonWS_append (a b : Str) : nonWS (a ++ b) = nonWS a ++ nonWS b :=
  List.filter_append _ _

theorem nonWS_eq_nil_of_all_ws {s : Str} (h : ∀ c ∈ s, isWS c) : nonWS s = [] := by
  simp only [nonWS, List.filter_eq_nil_iff]
  intro c hc
  simp [h c hc]

theorem pyRstrip_spec (s : Str) : ∃ t, s = pyRstrip s ++ t ∧ ∀ c ∈ t, isWS c := by
  induction s with
  | nil => exact ⟨[], rfl, by simp⟩
  | cons c s ih =>
    obtain ⟨t, hs, hws⟩ := ih
    by_cases h : pyRstrip s = []
    · by_cases hc : isWS c
      · refine ⟨c :: s, ?_, ?_⟩
        · simp [pyRstrip, h, hc]
        · intro d hd
          rcases List.mem_cons.mp hd with rfl | hd
          · exact hc
          · rw [hs, h, List.nil_append] at hd
            exact hws d hd
      · refine ⟨t, ?_, hws⟩
        rw [pyRstrip]
        rw [h] at hs ⊢
        simpa [hc] using congrArg (c :: ·) hs
    · refine ⟨t, ?_, hws⟩
      rw [pyRstrip]
      rcases hr : pyRstrip s with _ | ⟨r, rs⟩
      · exact absurd hr h
      · rw [hr] at hs
        simpa using congrArg (c :: ·) hs

theorem nonWS_pyRstrip (s : Str) : nonWS (pyRstrip s) = nonWS s := by
  obtain ⟨t, hs, hws⟩ := pyRstrip_spec s
  conv_rhs => rw [hs]
  rw [nonWS_append, nonWS_eq_nil_of_all_ws hws, List.append_nil]

theorem nonWS_drop_pyRstrip (s : Str) (n : Nat) :
    nonWS ((pyRstrip s).drop n) = nonWS (s.drop n) := by
  obtain ⟨t, hs, hws⟩ := pyRstrip_spec s
  by_cases h : n ≤ (pyRstrip s).length
  · conv_rhs => rw [hs]
    rw [List.drop_append_of_le_length h, nonWS_append, nonWS_eq_nil_of_all_ws hws,
      List.append_nil]
  · push_neg at h
    rw [List.drop_eq_nil_of_le (Nat.le_of_lt h)]
    have h2 : nonWS (s.drop n) = [] := by
      refine nonWS_eq_nil_of_all_ws ?_
      intro c hc
      rw [hs] at hc
      obtain ⟨k, hk⟩ := Nat.exists_eq_add_of_le (Nat.le_of_lt h)
      rw [hk, List.drop_append] at hc
      exact hws c (List.mem_of_mem_drop hc)
    rw [h2]
    rfl

theorem pyLstrip_spec (s : Str) :
    s = s.takeWhile isWS ++ pyLstrip s ∧ ∀ c ∈ s.takeWhile isWS, isWS c :=
  ⟨(List.takeWhile_append_dropWhile isWS s).symm, fun _ hc => List.mem_takeWhile_imp hc⟩

theorem nonWS_pyLstrip (s : Str) : nonWS (pyLstrip s) = nonWS s := by
  obtain ⟨hs, hws⟩ := pyLstrip_spec s
  conv_rhs => rw [hs]
  rw [nonWS_append, nonWS_eq_nil_of_all_ws hws, List.nil_append]

theorem nonWS_pyStrip (s : Str) : nonWS (pyStrip s) = nonWS s := by
  rw [pyStrip, nonWS_pyRstrip, nonWS_pyLstrip]

theorem nonWS_eq_nil_of_strip_empty {s : Str} (h : pyStrip s = []) : nonWS s = [] := by
  rw [← nonWS_pyStrip, h]
  rfl

theorem nonWS_take_drop (s : Str) (o : Nat) :
    nonWS s = nonWS (s.take o) ++ nonWS (s.drop o) := by
  conv_lhs => rw [← List.take_append_drop o s]
  exact nonWS_append _ _

/-- The key strip/overlap fact: if the first `o` characters of `cur` duplicate
earlier content, then some prefix of length at most `o` of `pyStrip cur` can be
removed so that the non-whitespace remainder is that of `cur.drop o`. -/
theorem strip_drop_exists (cur : Str) (o : Nat) :
    ∃ oo, oo ≤ o ∧ nonWS ((pyStrip cur).drop oo) = nonWS (cur.drop o) := by
  set k := (cur.takeWhile isWS).length with hk
  obtain ⟨hs, hws⟩ := pyLstrip_spec cur
  by_cases h : o ≤ k
  · refine ⟨0, Nat.zero_le _, ?_⟩
    rw [List.drop_zero, nonWS_pyStrip]
    have h1 : nonWS (cur.drop o) = nonWS (pyLstrip cur) := by
      conv_lhs => rw [hs]
      rw [List.drop_append_of_le_length (by simpa using h), nonWS_append,
        nonWS_eq_nil_of_all_ws (fun c hc => hws c (List.mem_of_mem_drop hc)),
        List.nil_append]
    rw [h1, nonWS_pyLstrip]
  · push_neg at h
    refine ⟨o - k, Nat.sub_le _ _, ?_⟩
    rw [pyStrip, nonWS_drop_pyRstrip]
    have ho : o = (cur.takeWhile isWS).length + (o - k) := by omega
    have h1 : cur.drop o = (pyLstrip cur).drop (o - k) := by
      conv_lhs => rw [hs, ho]
      rw [List.drop_append]
    rw [h1]

theorem pyRstrip_length_le (s : Str) : (pyRstrip s).length ≤ s.length := by
  obtain ⟨t, hs, _⟩ := pyRstrip_spec s
  conv_rhs => rw [hs]
  simp

theorem pyStrip_length_le (s : Str) : (pyStrip s).length ≤ s.length :=
  Nat.le_trans (pyRstrip_length_le _) ((List.dropWhile_sublist _).length_le)

theorem takeRight_length_le (n : Nat) (s : Str) : (takeRight n s).length ≤ n := by
  simp only [takeRight, List.length_drop]
  omega

/-!
### The splitters preserve content
-/

theorem startsWith_spec (sep : Str) : ∀ s, startsWith s sep = true → s = sep ++ s.drop sep.length := by
  induction sep with
  | nil => intro s _; simp
  | cons p ps ih =>
    intro s h
    cases s with
    | nil => simp [startsWith] at h
    | cons c t =>
      simp only [startsWith, Bool.and_eq_true, beq_iff_eq] at h
      obtain ⟨rfl, h2⟩ := h
      simpa using ih t h2

theorem flatten_splitKeepSepGo (sep : Str) (hsep : sep ≠ []) (acc s : Str) :
    (splitKeepSepGo sep acc s).flatten = acc.reverse ++ s := by
  induction acc, s using splitKeepSepGo.induct sep with
  | case1 acc => simp [splitKeepSepGo]
  | case2 acc c rest hpre ih =>
    rw [splitKeepSepGo, if_pos hpre, List.flatten_cons, ih, List.reverse_nil,
      List.nil_append, List.append_assoc]
    congr 1
    cases sep with
    | nil => exact absurd rfl hsep
    | cons a ps =>
      have h1 := startsWith_spec (a :: ps) (c :: rest) hpre
      rw [List.length_cons, List.drop_succ_cons] at h1
      simpa using h1.symm
  | case3 acc c rest hpre ih =>
    rw [splitKeepSepGo, if_neg hpre, ih]
    simp

theorem flatten_splitKeepSep (sep : Str) (hsep : sep ≠ []) (s : Str) :
    (splitKeepSep sep s).flatten = s := by
  rw [splitKeepSep, flatten_splitKeepSepGo sep hsep, List.reverse_nil, List.nil_append]

theorem flatten_flatMap_splitKeepSep (sep : Str) (hsep : sep ≠ []) (parts : List Str) :
    (parts.flatMap (splitKeepSep sep)).flatten = parts.flatten := by
  induction parts with
  | nil => rfl
  | cons p rest ih =>
    rw [List.flatMap_cons, List.flatten_append, flatten_splitKeepSep sep hsep,
      ih, List.flatten_cons]

theorem nonWS_flatten_splitBySeparators (text : Str) :
    nonWS (splitBySeparators text).flatten = nonWS text := by
  rw [splitBySeparators]
  have hflat : ∀ parts : List Str,
      nonWS (parts.filter (fun p => !(pyStrip p).isEmpty)).flatten = nonWS parts.flatten := by
    intro parts
    induction parts with
    | nil => rfl
    | cons p rest ih =>
      by_cases h : (pyStrip p).isEmpty
      · have hp : nonWS p = [] :=
          nonWS_eq_nil_of_strip_empty (List.isEmpty_iff.mp h)
        rw [List.filter_cons_of_neg (by simp [h]), ih, List.flatten_cons,
          nonWS_append, hp, List.nil_append]
      · rw [List.filter_cons_of_pos (by simp [h]), List.flatten_cons, List.flatten_cons,
          nonWS_append, nonWS_append, ih]
  rw [hflat]
  show nonWS (List.flatten
    ((((([text].flatMap (splitKeepSep ['\n', '\n'])).flatMap (splitKeepSep ['\n'])).flatMap
      (splitKeepSep ['.', ' '])).flatMap (splitKeepSep [' '])))) = nonWS text
  rw [flatten_flatMap_splitKeepSep _ (by simp), flatten_flatMap_splitKeepSep _ (by simp),
    flatten_flatMap_splitKeepSep _ (by simp), flatten_flatMap_splitKeepSep _ (by simp)]
  simp

theorem flatten_splitSentencesGo (acc s : Str) :
    (splitSentencesGo acc s).flatten = acc.reverse ++ s := by
  induction acc, s using splitSentencesGo.induct with
  | case1 acc => simp [splitSentencesGo]
  | case2 acc c rest hcond ih =>
    rw [splitSentencesGo, if_pos hcond, List.flatten_cons, List.flatten_cons, ih]
    simp [List.takeWhile_append_dropWhile]
  | case3 acc c rest hcond ih =>
    rw [splitSentencesGo, if_neg hcond, ih]
    simp

theorem flatten_splitSentences (s : Str) : (splitSentences s).flatten = s := by
  rw [splitSentences, flatten_splitSentencesGo, List.reverse_nil, List.nil_append]

/-!
### Reconstruction of the original content from the chunks
-/

/-- Concatenate the given texts after dropping `ds i` leading characters from
the `i`-th one. -/
def reconWith (ds : List Nat) (ts : List Str) : Str := (List.zipWith List.drop ds ts).flatten

/-- There is a choice of per-chunk overlap lengths, each at most `co` (and at
most `o` for the first chunk), whose removal makes the chunk texts concatenate
to the non-whitespace content of `target`. -/
def ReconFrom (co o : Nat) (chunks : List Chunk) (target : Str) : Prop :=
  ∃ ds : List Nat, ds.length = chunks.length ∧ (∀ d ∈ ds, d ≤ co) ∧
    (∀ d ∈ ds.take 1, d ≤ o) ∧
    nonWS (reconWith ds (chunks.map Chunk.text)) = nonWS target

theorem reconWith_cons (d : Nat) (ds : List Nat) (t : Str) (ts : List Str) :
    reconWith (d :: ds) (t :: ts) = t.drop d ++ reconWith ds ts := by
  simp [reconWith]

theorem reconWith_append {ds1 ds2 : List Nat} {ts1 ts2 : List Str}
    (h : ds1.length = ts1.length) :
    reconWith (ds1 ++ ds2) (ts1 ++ ts2) = reconWith ds1 ts1 ++ reconWith ds2 ts2 := by
  rw [reconWith, List.zipWith_append _ _ _ _ _ h, List.flatten_append]
  rfl

theorem take_one_append {A B : List Nat} {d : Nat} (h : d ∈ (A ++ B).take 1) :
    d ∈ A.take 1 ∨ d ∈ B.take 1 := by
  cases A with
  | nil => exact Or.inr (by simpa using h)
  | cons a t => simp_all

theorem nonWS_drop_nil_of_strip_empty {cur : Str} (h : (pyStrip cur).isEmpty = true)
    (o : Nat) : nonWS (cur.drop o) = [] := by
  have h1 : nonWS cur = [] := nonWS_eq_nil_of_strip_empty (List.isEmpty_iff.mp h)
  have h2 := nonWS_take_drop cur o
  rw [h1] at h2
  exact (List.append_eq_nil.mp h2.symm).2

theorem recon_base (co idx : Nat) (cur : Str) (o : Nat) (hco : o ≤ co) :
    ReconFrom co o
      (if !(pyStrip cur).isEmpty then [createChunk (pyStrip cur) idx] else [])
      (cur.drop o ++ [].flatten) := by
  by_cases h : (pyStrip cur).isEmpty
  · rw [if_neg (by simp [h])]
    refine ⟨[], rfl, by simp, by simp, ?_⟩
    rw [List.flatten_nil, List.append_nil, nonWS_drop_nil_of_strip_empty h o]
    rfl
  · rw [if_pos (by simp [h])]
    obtain ⟨oo, hoo, hnw⟩ := strip_drop_exists cur o
    refine ⟨[oo], rfl, by simpa using Nat.le_trans hoo hco, by simpa using hoo, ?_⟩
    show nonWS (reconWith [oo] [pyStrip cur]) = _
    rw [reconWith_cons]
    simp only [reconWith, List.zipWith_nil_right, List.flatten_nil, List.append_nil]
    rw [hnw]

theorem splitLargeLoop_recon (cs co : Nat) (sents : List Str) :
    ∀ idx cur o, o ≤ co → o ≤ cur.length →
      ReconFrom co o (splitLargeLoop cs co idx cur sents) (cur.drop o ++ sents.flatten) := by
  induction sents with
  | nil =>
    intro idx cur o hco _
    rw [splitLargeLoop]
    exact recon_base co idx cur o hco
  | cons s rest ih =>
    intro idx cur o hco ho
    rw [splitLargeLoop]
    by_cases h : cur.length + s.length > cs ∧ cur ≠ []
    · rw [if_pos h]
      obtain ⟨oo, hoo, hnw⟩ := strip_drop_exists cur o
      have h1 : (if co > 0 then (takeRight co cur).length else 0) ≤ co := by
        split
        · exact takeRight_length_le _ _
        · exact Nat.zero_le _
      have h2 : (if co > 0 then (takeRight co cur).length else 0) ≤
          (if co > 0 then takeRight co cur ++ s else s).length := by
        split
        · simp
        · exact Nat.zero_le _
      obtain ⟨ds, hlen, hbound, _, hcontent⟩ := ih (idx + 1) _ _ h1 h2
      have h3 : (if co > 0 then takeRight co cur ++ s else s).drop
          (if co > 0 then (takeRight co cur).length else 0) = s := by
        split
        · exact List.drop_left _ _
        · exact List.drop_zero _
      refine ⟨oo :: ds, by simpa using hlen, ?_, by simpa using hoo, ?_⟩
      · intro d hd
        rcases List.mem_cons.mp hd with rfl | hd
        · exact Nat.le_trans hoo hco
        · exact hbound d hd
      · show nonWS (reconWith (oo :: ds) (pyStrip cur :: _)) = _
        rw [reconWith_cons, nonWS_append, hnw, hcontent, h3, List.flatten_cons,
          ← nonWS_append]
    · rw [if_neg h]
      have hlen : o ≤ (cur ++ s).length := by
        rw [List.length_append]; omega
      have h4 := ih idx (cur ++ s) o hco hlen
      rw [List.flatten_cons, ← List.append_assoc, ← List.drop_append_of_le_length ho]
      exact h4

theorem splitTextLoop_recon (cs co : Nat) (parts : List Str) :
    ∀ idx cur o, o ≤ co → o ≤ cur.length →
      ReconFrom co o (splitTextLoop cs co idx cur parts) (cur.drop o ++ parts.flatten) := by
  induction parts with
  | nil =>
    intro idx cur o hco _
    rw [splitTextLoop]
    exact recon_base co idx cur o hco
  | cons p rest ih =>
    intro idx cur o hco ho
    rw [splitTextLoop]
    by_cases hbig : p.length > cs
    · rw [if_pos hbig]
      by_cases hcur : cur ≠ []
      · simp only [if_pos hcur, List.length_cons, List.length_nil, Nat.zero_add,
          splitLargeText]
        obtain ⟨oo, hoo, hnw⟩ := strip_drop_exists cur o
        have hsub := splitLargeLoop_recon cs co (splitSentences p) (idx + 1) [] 0
          (Nat.zero_le _) (Nat.zero_le _)
        rw [List.drop_nil, List.nil_append, flatten_splitSentences] at hsub
        obtain ⟨ds2, hlen2, hbound2, _, hcontent2⟩ := hsub
        have hrest := ih
          (idx + 1 + (splitLargeLoop cs co (idx + 1) [] (splitSentences p)).length)
          [] 0 (Nat.zero_le _) (Nat.zero_le _)
        rw [List.drop_nil, List.nil_append] at hrest
        obtain ⟨ds3, hlen3, hbound3, _, hcontent3⟩ := hrest
        refine ⟨oo :: (ds2 ++ ds3), ?_, ?_, by simpa using hoo, ?_⟩
        · simp only [List.length_cons, List.length_append, List.length_singleton,
            hlen2, hlen3]
          simp [Nat.add_comm, Nat.add_assoc, Nat.add_left_comm]
        · intro d hd
          rcases List.mem_cons.mp hd with rfl | hd
          · exact Nat.le_trans hoo hco
          · rcases List.mem_append.mp hd with hd | hd
            · exact hbound2 d hd
            · exact hbound3 d hd
        · have e1 : (([createChunk (pyStrip cur) idx] ++
              splitLargeLoop cs co (idx + 1) [] (splitSentences p) ++
              splitTextLoop cs co
                (idx + 1 + (splitLargeLoop cs co (idx + 1) [] (splitSentences p)).length)
                [] rest).map Chunk.text)
              = pyStrip cur ::
                ((splitLargeLoop cs co (idx + 1) [] (splitSentences p)).map Chunk.text ++
                 (splitTextLoop cs co
                   (idx + 1 + (splitLargeLoop cs co (idx + 1) [] (splitSentences p)).length)
                   [] rest).map Chunk.text) := by
            simp [createChunk]
          rw [e1, reconWith_cons,
            reconWith_append (by simpa using hlen2),
            List.flatten_cons, nonWS_append, nonWS_append, hnw, hcontent2, hcontent3,
            nonWS_append, nonWS_append]
      · simp only [if_neg hcur, List.length_nil, Nat.add_zero, List.nil_append,
          splitLargeText]
        have hcnil : cur = [] := Decidable.not_not.mp hcur
        subst hcnil
        have ho0 : o = 0 := Nat.le_zero.mp ho
        subst ho0
        have hsub := splitLargeLoop_recon cs co (splitSentences p) idx [] 0
          (Nat.zero_le _) (Nat.zero_le _)
        rw [List.drop_nil, List.nil_append, flatten_splitSentences] at hsub
        obtain ⟨ds2, hlen2, hbound2, hfirst2, hcontent2⟩ := hsub
        have hrest := ih
          (idx + (splitLargeLoop cs co idx [] (splitSentences p)).length)
          [] 0 (Nat.zero_le _) (Nat.zero_le _)
        rw [List.drop_nil, List.nil_append] at hrest
        obtain ⟨ds3, hlen3, hbound3, hfirst3, hcontent3⟩ := hrest
        refine ⟨ds2 ++ ds3, ?_, ?_, ?_, ?_⟩
        · simp [hlen2, hlen3]
        · intro d hd
          rcases List.mem_append.mp hd with hd | hd
          · exact hbound2 d hd
          · exact hbound3 d hd
        · intro d hd
          rcases take_one_append hd with hd | hd
          · exact hfirst2 d hd
          · exact hfirst3 d hd
        · rw [List.map_append, reconWith_append (by simpa using hlen2),
            nonWS_append, hcontent2, hcontent3, List.flatten_cons, List.drop_nil,
            List.nil_append, nonWS_append]
    · rw [if_neg hbig]
      by_cases h : cur.length + p.length > cs ∧ cur ≠ []
      · rw [if_pos h]
        obtain ⟨oo, hoo, hnw⟩ := strip_drop_exists cur o
        have h1 : (if co > 0 ∧ cur ≠ [] then (takeRight co cur).length else 0) ≤ co := by
          split
          · exact takeRight_length_le _ _
          · exact Nat.zero_le _
        have h2 : (if co > 0 ∧ cur ≠ [] then (takeRight co cur).length else 0) ≤
            (if co > 0 ∧ cur ≠ [] then takeRight co cur ++ p else p).length := by
          split
          · simp
          · exact Nat.zero_le _
        obtain ⟨ds, hlen, hbound, _, hcontent⟩ := ih (idx + 1) _ _ h1 h2
        have h3 : (if co > 0 ∧ cur ≠ [] then takeRight co cur ++ p else p).drop
            (if co > 0 ∧ cur ≠ [] then (takeRight co cur).length else 0) = p := by
          split
          · exact List.drop_left _ _
          · exact List.drop_zero _
        refine ⟨oo :: ds, by simpa using hlen, ?_, by simpa using hoo, ?_⟩
        · intro d hd
          rcases List.mem_cons.mp hd with rfl | hd
          · exact Nat.le_trans hoo hco
          · exact hbound d hd
        · show nonWS (reconWith (oo :: ds) (pyStrip cur :: _)) = _
          rw [reconWith_cons, nonWS_append, hnw, hcontent, h3, List.flatten_cons,
            ← nonWS_append]
      · rw [if_neg h]
        have hlen : o ≤ (cur ++ p).length := by
          rw [List.length_append]; omega
        have h4 := ih idx (cur ++ p) o hco hlen
        rw [List.flatten_cons, ← List.append_assoc, ← List.drop_append_of_le_length ho]
        exact h4

/-!
### Chunk-length bound (under the condition that no part exceeds chunk_size)
-/

theorem splitTextLoop_bound (cs co : Nat) (parts : List Str) :
    ∀ idx cur, (∀ p ∈ parts, p.length ≤ cs) → cur.length ≤ cs + co →
      ∀ c ∈ splitTextLoop cs co idx cur parts, c.text.length ≤ cs + co := by
  induction parts with
  | nil =>
    intro idx cur _ hcur c hc
    rw [splitTextLoop] at hc
    split at hc
    · rcases List.mem_singleton.mp hc with rfl
      exact Nat.le_trans (pyStrip_length_le cur) hcur
    · exact absurd hc (List.not_mem_nil c)
  | cons p rest ih =>
    intro idx cur hp hcur c hc
    have hple : p.length ≤ cs := hp p (List.mem_cons_self p rest)
    rw [splitTextLoop] at hc
    rw [if_neg (by omega)] at hc
    by_cases h : cur.length + p.length > cs ∧ cur ≠ []
    · rw [if_pos h] at hc
      rcases List.mem_cons.mp hc with rfl | hc
      · exact Nat.le_trans (pyStrip_length_le cur) hcur
      · refine ih (idx + 1) _ (fun q hq => hp q (List.mem_cons_of_mem p hq)) ?_ c hc
        split
        · rw [List.length_append]
          have := takeRight_length_le co cur
          omega
        · omega
    · rw [if_neg h] at hc
      refine ih idx _ (fun q hq => hp q (List.mem_cons_of_mem p hq)) ?_ c hc
      rw [List.length_append]
      rcases Decidable.not_and_iff_or_not.mp h with h1 | h1
      · omega
      · have : cur = [] := Decidable.not_not.mp h1
        subst this
        simpa using Nat.le_trans hple (Nat.le_add_right cs co)

/-!
### Claim C1
-/

/-- C1, counterexample: the claim "every chunk produced by
`TextChunker.split_text` has text of length at most chunk_size + chunk_overlap"
is false as stated.  With chunk_size 3 and chunk_overlap 1, the input
`"aaaaa"` (a single separator-free, sentence-boundary-free run longer than
chunk_size) is handed to `_split_large_text`, which cannot split it and emits
a single chunk of length 5 > 3 + 1. -/
theorem C1_counterexample :
    ¬ (∀ c ∈ splitText 3 1 (List.replicate 5 'a'), c.text.length ≤ 3 + 1) := by
  intro h
  have hm : createChunk (List.replicate 5 'a') 0 ∈ splitText 3 1 (List.replicate 5 'a') := by
    simp [splitText, splitBySeparators, pySeparators, splitKeepSep, splitKeepSepGo,
      startsWith, splitTextLoop, splitLargeText, splitLargeLoop, splitSentences,
      splitSentencesGo, hasWSHead, isSentEnd, pyStrip, pyLstrip, pyRstrip, isWS,
      createChunk, takeRight, List.replicate]
  have h2 := h _ hm
  simp [createChunk] at h2

/-- C1 (amended): (1) whenever every separator-delimited part of the input is
at most chunk_size long (so the `_split_large_text` fallback is never
invoked), every chunk produced by `TextChunker.split_text` has text of length
at most chunk_size + chunk_overlap; and (2) for every input there is a choice
of per-chunk leading-overlap lengths, each at most chunk_overlap and zero for
the first chunk, whose removal makes the chunk texts concatenate to exactly
the original text's non-whitespace content in order. -/
theorem C1_amended (cs co : Nat) (text : Str) :
    ((∀ p ∈ splitBySeparators text, p.length ≤ cs) →
       ∀ c ∈ splitText cs co text, c.text.length ≤ cs + co) ∧
    (∃ ds : List Nat, ds.length = (splitText cs co text).length ∧
       (∀ d ∈ ds, d ≤ co) ∧ (∀ d ∈ ds.take 1, d = 0) ∧
       nonWS (reconWith ds ((splitText cs co text).map Chunk.text)) = nonWS text) := by
  constructor
  · intro hp c hc
    rw [splitText] at hc
    split at hc
    · exact absurd hc (List.not_mem_nil c)
    · exact splitTextLoop_bound cs co (splitBySeparators text) 0 [] hp (by simp) c hc
  · rw [splitText]
    split
    · next h =>
      refine ⟨[], rfl, by simp, by simp, ?_⟩
      rw [nonWS_eq_nil_of_strip_empty (List.isEmpty_iff.mp h)]
      rfl
    · have h1 := splitTextLoop_recon cs co (splitBySeparators text) 0 [] 0
        (Nat.zero_le _) (Nat.zero_le _)
      rw [List.drop_nil, List.nil_append] at h1
      obtain ⟨ds, hlen, hbound, hfirst, hcontent⟩ := h1
      exact ⟨ds, hlen, hbound, fun d hd => Nat.le_zero.mp (hfirst d hd),
        by rw [hcontent, nonWS_flatten_splitBySeparators]⟩

/-- Witness for `C1_amended` at a concrete input. -/
theorem C1_amended_witness :
    (((splitText 5 2 "ab cd".toList).headD (createChunk [] 0)).text.length ≤ 5 + 2) ∧
    (∃ ds : List Nat, ds.length = (splitText 5 2 "ab cd".toList).length ∧
       (∀ d ∈ ds, d ≤ 2) ∧ (∀ d ∈ ds.take 1, d = 0) ∧
       nonWS (reconWith ds ((splitText 5 2 "ab cd".toList).map Chunk.text)) =
         nonWS "ab cd".toList) := by
  have e : splitText 5 2 "ab cd".toList = [createChunk "ab cd".toList 0] := by
    simp [splitText, splitBySeparators, pySeparators, splitKeepSep, splitKeepSepGo,
      startsWith, splitTextLoop, splitLargeText, splitLargeLoop, splitSentences,
      splitSentencesGo, hasWSHead, isSentEnd, pyStrip, pyLstrip, pyRstrip, isWS,
      createChunk, takeRight]
  exact ⟨(C1_amended 5 2 "ab cd".toList).1 (by rw [show splitBySeparators "ab cd".toList
      = ["ab ".toList, "cd".toList] by
        simp [splitBySeparators, pySeparators, splitKeepSep, splitKeepSepGo,
          startsWith, pyStrip, pyLstrip, pyRstrip, isWS]]; decide)
    _ (by rw [e]; decide),
   (C1_amended 5 2 "ab cd".toList).2⟩

/-!
## Data model (src/backend/services/{indexing,search}.py)

Chunk ids (`str(uuid.uuid4())`) and document ids are modelled as opaque
numbers; fresh uuids are drawn from a counter in the state.  Scores are exact
rationals in place of IEEE doubles: none of the verified pipeline properties
depends on rounding.
-/

/-- Extracted entities carried in chunk metadata (entity_extraction.py). -/
structure Entities where
  dates : List Str
  amounts : List Str
  pan_numbers : List Str
  gstin_numbers : List Str
  invoice_numbers : List Str
deriving DecidableEq, Repr

/-- Chunk metadata fields read by the search pipeline. -/
structure Meta where
  chunk_type : Option Str
  page : Option Nat
  table_index : Option Nat
  row_index : Option Nat
  vendor : Option Str
  entities : Option Entities
deriving DecidableEq, Repr

def emptyEntities : Entities := ⟨[], [], [], [], []⟩

def emptyMeta : Meta := ⟨none, none, none, none, none, none⟩

/-- A row of the `documents` table (the fields the core reads). -/
structure DocRow where
  id : Nat
  client_id : Str
  period : Option Str
  category : Option Str
  doc_type : Option Str
deriving DecidableEq, Repr

/-- A row of the `document_chunks` table. -/
structure ChunkRow where
  rowid : Nat
  id : Nat
  document_id : Nat
  chunk_index : Nat
  text : Str
  embedding : Option (List Nat)   -- the BLOB, as bytes; NULL is `none`
  metadata : Option Meta          -- the JSON metadata, modelled structurally
deriving DecidableEq, Repr

/-- The persistent store: chunk table, documents table and the FTS5 index
(`document_fts`, keyed by the chunk rowid), plus the SQLite rowid allocator
and the uuid source. -/
structure DBState where
  chunks : List ChunkRow
  documents : List DocRow
  fts : List (Nat × Str)
  nextRowid : Nat
  nextChunkId : Nat
deriving DecidableEq, Repr

/-!
## Embedding blob serialization (VectorStorage._embedding_to_blob /
_blob_to_embedding, and SemanticSearch._blob_to_embedding)

A float32 is modelled by its 32-bit IEEE-754 bit pattern; `tobytes` emits the
4 bytes of each element in order (little-endian — the byte order is fixed by
the platform and is irrelevant to the round-trip property).
-/

def word32ToBytes (w : Nat) : List Nat :=
  [w % 256, w / 256 % 256, w / 256 ^ 2 % 256, w / 256 ^ 3 % 256]

/-- `_embedding_to_blob`: `np.ndarray.tobytes()` on a float32 vector. -/
def embeddingToBlob (emb : List Nat) : List Nat := emb.flatMap word32ToBytes

/-- `_blob_to_embedding`: `np.frombuffer(blob, dtype=np.float32)`.  numpy
raises ValueError when the byte length is not a multiple of the 4-byte item
size (the `none` case); it never truncates or pads. -/
def blobToEmbedding : List Nat → Option (List Nat)
  | [] => some []
  | b0 :: b1 :: b2 :: b3 :: rest =>
    (blobToEmbedding rest).map
      (fun ws => (b0 + 256 * b1 + 256 ^ 2 * b2 + 256 ^ 3 * b3) :: ws)
  | _ => none

/-!
## VectorStorage (src/backend/services/indexing.py)

Every `db.execute` / `fetchone` / `fetchall` may raise a PersistenceError
(the connection layer re-raises after its retries); this is modelled by a
failure schedule `sched` telling which db call (by a running counter) fails.
No transaction wraps any of the operations: the database is opened in
autocommit mode, so every successful statement is immediately durable.
-/

/-- One db call: advances the call counter, fails when the schedule says so
(leaving the state as it was), otherwise applies the statement `f`. -/
def dbCall (sched : Nat → Bool) (n : Nat) (st : DBState) (f : DBState → DBState) :
    Except (Nat × DBState) (Nat × DBState) :=
  if sched n then .error (n + 1, st) else .ok (n + 1, f st)

/-- `VectorStorage.store_chunk`: INSERT the chunk row, SELECT its rowid back,
then INSERT the FTS row for that rowid (`if chunk_rowid:` — Python truthiness
skips a missing or zero rowid).  Returns the chunk id. -/
def storeChunk (sched : Nat → Bool) (n : Nat) (st : DBState)
    (document_id chunk_index : Nat) (text : Str) (embedding : List Nat)
    (metadata : Option Meta) : Except (Nat × DBState) (Nat × Nat × DBState) :=
  let chunk_id := st.nextChunkId
  let row : ChunkRow :=
    ⟨st.nextRowid, chunk_id, document_id, chunk_index, text,
      some (embeddingToBlob embedding), metadata⟩
  match dbCall sched n st (fun st =>
      { st with chunks := st.chunks ++ [row], nextRowid := st.nextRowid + 1,
                nextChunkId := st.nextChunkId + 1 }) with
  | .error e => .error e
  | .ok (n1, st1) =>
    match dbCall sched n1 st1 (fun st => st) with   -- SELECT rowid (fetchone)
    | .error e => .error e
    | .ok (n2, st2) =>
      match (st2.chunks.find? (fun r => r.id == chunk_id)).map ChunkRow.rowid with
      | some rid =>
        if rid ≠ 0 then
          match dbCall sched n2 st2
              (fun st => { st with fts := st.fts ++ [(rid, text)] }) with
          | .error e => .error e
          | .ok (n3, st3) => .ok (chunk_id, n3, st3)
        else .ok (chunk_id, n2, st2)
      | none => .ok (chunk_id, n2, st2)

/-- One element of the `chunks` argument of `store_chunks_batch`
(`chunk.get("chunk_index", i)` defaults to the position). -/
structure BatchChunk where
  chunk_index : Option Nat
  text : Str
  metadata : Option Meta
deriving DecidableEq, Repr

/-- The loop of `store_chunks_batch` over `zip(chunks, embeddings)`:
sequential `store_chunk` calls, no transaction, an exception aborts the rest
of the loop and propagates. -/
def storeBatchGo (sched : Nat → Bool) (document_id : Nat) :
    Nat → List (BatchChunk × List Nat) → Nat → DBState →
    Except (Nat × DBState) (List Nat × Nat × DBState)
  | _, [], n, st => .ok ([], n, st)
  | i, (c, emb) :: rest, n, st =>
    match storeChunk sched n st document_id (c.chunk_index.getD i) c.text emb
        c.metadata with
    | .error e => .error e
    | .ok (cid, n1, st1) =>
      match storeBatchGo sched document_id (i + 1) rest n1 st1 with
      | .error e => .error e
      | .ok (cids, n2, st2) => .ok (cid :: cids, n2, st2)

/-- `VectorStorage.store_chunks_batch`. -/
def storeChunksBatch (sched : Nat → Bool) (n : Nat) (st : DBState)
    (document_id : Nat) (chunks : List BatchChunk) (embeddings : List (List Nat)) :
    Except (Nat × DBState) (List Nat × Nat × DBState) :=
  storeBatchGo sched document_id 0 (chunks.zip embeddings) n st

/-- The FTS deletion loop at the end of `delete_document_chunks`: one DELETE
per collected rowid. -/
def deleteFtsLoop (sched : Nat → Bool) :
    List Nat → Nat → DBState → Except (Nat × DBState) (Nat × DBState)
  | [], n, st => .ok (n, st)
  | rid :: rest, n, st =>
    match dbCall sched n st
        (fun st => { st with fts := st.fts.filter (fun e => !(e.1 == rid)) }) with
    | .error e => .error e
    | .ok (n1, st1) => deleteFtsLoop sched rest n1 st1

/-- `VectorStorage.delete_document_chunks`: fetch the document's chunk rowids,
DELETE the chunk rows, then DELETE the FTS rows one by one. -/
def deleteDocumentChunks (sched : Nat → Bool) (n : Nat) (st : DBState)
    (document_id : Nat) : Except (Nat × DBState) (Nat × DBState) :=
  match dbCall sched n st (fun st => st) with       -- fetchall rowids
  | .error e => .error e
  | .ok (n1, st1) =>
    let rowids := (st1.chunks.filter
      (fun r => r.document_id == document_id)).map ChunkRow.rowid
    match dbCall sched n1 st1 (fun st =>
        { st with chunks :=
            st.chunks.filter (fun r => !(r.document_id == document_id)) }) with
    | .error e => .error e
    | .ok (n2, st2) => deleteFtsLoop sched rowids n2 st2

/-- The chunk record returned by `get_chunk`. -/
structure ChunkOut where
  id : Nat
  document_id : Nat
  chunk_index : Nat
  text : Str
  metadata : Option Meta
  embedding : Option (List Nat)   -- deserialized float32 words, when present
deriving DecidableEq, Repr

/-- `VectorStorage.get_chunk`: a read; the embedding is attached only when the
blob is truthy (present and non-empty), deserialized with
`_blob_to_embedding`.  `np.frombuffer` raises only when the byte length is
not a multiple of 4 (`.error`); there is no check whatsoever against the
configured `embedding_dim`. -/
def getChunk (st : DBState) (chunk_id : Nat) : Except Unit (Option ChunkOut) :=
  match st.chunks.find? (fun r => r.id == chunk_id) with
  | none => .ok none
  | some r =>
    match r.embedding with
    | some blob =>
      if blob.isEmpty then
        .ok (some ⟨r.id, r.document_id, r.chunk_index, r.text, r.metadata, none⟩)
      else
        match blobToEmbedding blob with
        | some ws =>
          .ok (some ⟨r.id, r.document_id, r.chunk_index, r.text, r.metadata, some ws⟩)
        | none => .error ()
    | none => .ok (some ⟨r.id, r.document_id, r.chunk_index, r.text, r.metadata, none⟩)

/-- The document's chunk rows, in table order. -/
def docChunks (st : DBState) (document_id : Nat) : List ChunkRow :=
  st.chunks.filter (fun r => r.document_id == document_id)

deriving instance DecidableEq for Except

/-!
### Claim C8 — embedding blob round trip
-/

/-- C8: for every float32 embedding vector accepted by `store_chunk`
(the embedding generator emits `astype(np.float32)` vectors, modelled by
their 32-bit patterns), serializing with `_embedding_to_blob` and
deserializing with `_blob_to_embedding` yields the identical vector, and the
serialized form is a fixed-width array of 4 bytes per float32 element. -/
theorem C8_roundtrip (emb : List Nat) (h : ∀ x ∈ emb, x < 2 ^ 32) :
    blobToEmbedding (embeddingToBlob emb) = some emb ∧
    (embeddingToBlob emb).length = 4 * emb.length := by
  induction emb with
  | nil => simp [embeddingToBlob, blobToEmbedding]
  | cons w rest ih =>
    have hw : w < 2 ^ 32 := h w (List.mem_cons_self _ _)
    obtain ⟨ih1, ih2⟩ := ih (fun x hx => h x (List.mem_cons_of_mem _ hx))
    have e : embeddingToBlob (w :: rest)
        = w % 256 :: (w / 256 % 256) :: (w / 256 ^ 2 % 256) :: (w / 256 ^ 3 % 256)
          :: embeddingToBlob rest := by
      simp [embeddingToBlob, word32ToBytes]
    constructor
    · rw [e, blobToEmbedding, ih1, Option.map_some']
      have hv : w % 256 + 256 * (w / 256 % 256) + 256 ^ 2 * (w / 256 ^ 2 % 256)
          + 256 ^ 3 * (w / 256 ^ 3 % 256) = w := by
        simp only [show (256 : Nat) ^ 2 = 65536 from rfl,
          show (256 : Nat) ^ 3 = 16777216 from rfl] at *
        omega
      rw [hv]
    · rw [e]
      simp only [List.length_cons, ih2, List.length_cons]
      omega

/-- Witness for `C8_roundtrip` at the concrete vector
`[0.0f, 1.0f] = [0x00000000, 0x3F800000]`. -/
theorem C8_roundtrip_witness :
    blobToEmbedding (embeddingToBlob [0, 1065353216]) = some [0, 1065353216] ∧
    (embeddingToBlob [0, 1065353216]).length = 4 * [0, 1065353216].length :=
  C8_roundtrip [0, 1065353216] (by decide)

/-!
### Claim C9 — no dimension check at read time
-/

/-- `np.frombuffer` semantics: succeeds exactly on byte lengths divisible by
4, and the resulting vector has length `bytes / 4` — whatever that is. -/
theorem blobToEmbedding_spec : ∀ b : List Nat,
    (4 ∣ b.length → ∃ ws, blobToEmbedding b = some ws ∧ ws.length = b.length / 4) ∧
    (¬ 4 ∣ b.length → blobToEmbedding b = none)
  | [] => by
    refine ⟨fun _ => ⟨[], rfl, rfl⟩, fun h => absurd ⟨0, rfl⟩ h⟩
  | [b0] => by
    refine ⟨fun h => ?_, fun _ => rfl⟩
    simp only [List.length_cons, List.length_nil] at h
    omega
  | [b0, b1] => by
    refine ⟨fun h => ?_, fun _ => rfl⟩
    simp only [List.length_cons, List.length_nil] at h
    omega
  | [b0, b1, b2] => by
    refine ⟨fun h => ?_, fun _ => rfl⟩
    simp only [List.length_cons, List.length_nil] at h
    omega
  | b0 :: b1 :: b2 :: b3 :: rest => by
    obtain ⟨ih1, ih2⟩ := blobToEmbedding_spec rest
    constructor
    · intro h
      have h4 : 4 ∣ rest.length := by
        simp only [List.length_cons] at h
        omega
      obtain ⟨ws, hws, hlen⟩ := ih1 h4
      refine ⟨(b0 + 256 * b1 + 256 ^ 2 * b2 + 256 ^ 3 * b3) :: ws, ?_, ?_⟩
      · rw [blobToEmbedding, hws]
        rfl
      · simp only [List.length_cons, hlen]
        omega
    · intro h
      have h4 : ¬ 4 ∣ rest.length := by
        simp only [List.length_cons] at h
        omega
      rw [blobToEmbedding, ih2 h4]
      rfl
termination_by b => b.length

/-- C9, counterexample: the configured embedding dimension is 384
(`VectorStorage.embedding_dim`), so a stored 8-byte blob mismatches the
1536-byte width of a valid embedding — yet `get_chunk` neither raises any
error nor truncates/pads: it silently returns a 2-element vector.  No
`DimensionMismatchError` exists anywhere in the code. -/
theorem C9_counterexample :
    getChunk ⟨[⟨1, 7, 1, 0, ['t'], some [0, 0, 0, 0, 0, 0, 128, 63], none⟩],
        [], [], 2, 8⟩ 7
      = .ok (some ⟨7, 1, 0, ['t'], none, some [0, 1065353216]⟩) ∧
    [0, 0, 0, 0, 0, 0, 128, 63].length ≠ 4 * 384 ∧
    [(0 : Nat), 1065353216].length ≠ 384 := by
  decide

/-- C9 (amended): reading a chunk whose stored blob has a byte length that is
a multiple of 4 succeeds and returns an embedding of dimension `bytes / 4`,
whether or not that matches the configured dimension — no dimension check is
performed and nothing is raised; only a byte length that is not a multiple of
the 4-byte item size raises (numpy's ValueError, not any
DimensionMismatchError). -/
theorem C9_amended (st : DBState) (chunk_id : Nat) (r : ChunkRow)
    (blob : List Nat) (hfind : st.chunks.find? (fun c => c.id == chunk_id) = some r)
    (hemb : r.embedding = some blob) (hne : blob.isEmpty = false) :
    (4 ∣ blob.length → ∃ ws, blobToEmbedding blob = some ws ∧
        ws.length = blob.length / 4 ∧
        getChunk st chunk_id
          = .ok (some ⟨r.id, r.document_id, r.chunk_index, r.text, r.metadata,
              some ws⟩)) ∧
    (¬ 4 ∣ blob.length → getChunk st chunk_id = .error ()) := by
  obtain ⟨h1, h2⟩ := blobToEmbedding_spec blob
  constructor
  · intro h
    obtain ⟨ws, hws, hlen⟩ := h1 h
    refine ⟨ws, hws, hlen, ?_⟩
    simp [getChunk, hfind, hemb, hne, hws]
  · intro h
    simp [getChunk, hfind, hemb, hne, h2 h]

/-- Witness for `C9_amended`: an 8-byte blob (dimension 2, not 384) is read
back without error. -/
theorem C9_amended_witness :
    ∃ ws, blobToEmbedding [0, 0, 0, 0, 0, 0, 128, 63] = some ws ∧
      ws.length = [0, 0, 0, 0, 0, 0, 128, 63].length / 4 ∧
      getChunk ⟨[⟨1, 9, 1, 0, ['t'], some [0, 0, 0, 0, 0, 0, 128, 63], none⟩],
          [], [], 2, 10⟩ 9
        = .ok (some ⟨9, 1, 0, ['t'], none, some ws⟩) :=
  (C9_amended ⟨[⟨1, 9, 1, 0, ['t'], some [0, 0, 0, 0, 0, 0, 128, 63], none⟩],
      [], [], 2, 10⟩ 9 ⟨1, 9, 1, 0, ['t'], some [0, 0, 0, 0, 0, 0, 128, 63], none⟩
      [0, 0, 0, 0, 0, 0, 128, 63] (by decide) (by decide) (by decide)).1 (by decide)

/-!
### Claim C6 — store_chunks_batch is not all-or-nothing
-/

/-- The texts of the document's persisted chunks, in insertion order. -/
def docTexts (st : DBState) (document_id : Nat) : List Str :=
  (docChunks st document_id).map ChunkRow.text

/-- Every outcome of `store_chunk`: either the initial INSERT fails and the
state is untouched, or the row is durably appended (autocommit) and the call
then fails or succeeds — the row stays either way. -/
theorem storeChunk_outcomes (sched : Nat → Bool) (n : Nat) (st : DBState)
    (doc idx : Nat) (text : Str) (emb : List Nat) (meta : Option Meta) :
    storeChunk sched n st doc idx text emb meta = .error (n + 1, st) ∨
    (∃ n' st', storeChunk sched n st doc idx text emb meta = .error (n', st') ∧
      st'.chunks = st.chunks
        ++ [⟨st.nextRowid, st.nextChunkId, doc, idx, text,
              some (embeddingToBlob emb), meta⟩]) ∨
    (∃ n' st', storeChunk sched n st doc idx text emb meta
        = .ok (st.nextChunkId, n', st') ∧
      st'.chunks = st.chunks
        ++ [⟨st.nextRowid, st.nextChunkId, doc, idx, text,
              some (embeddingToBlob emb), meta⟩]) := by
  unfold storeChunk dbCall
  by_cases h0 : sched n
  · simp [h0]
  · simp only [h0, Bool.false_eq_true, if_false]
    by_cases h1 : sched (n + 1)
    · simp only [h1, if_true]
      right; left
      exact ⟨n + 1 + 1, _, rfl, rfl⟩
    · simp only [h1, Bool.false_eq_true, if_false]
      rw [List.find?_append]
      rcases hfind : List.find? (fun r => r.id == st.nextChunkId) st.chunks with _ | r0
      · have hfind2 : List.find? (fun r : ChunkRow => r.id == st.nextChunkId)
            ([⟨st.nextRowid, st.nextChunkId, doc, idx, text,
              some (embeddingToBlob emb), meta⟩] : List ChunkRow)
            = some (⟨st.nextRowid, st.nextChunkId, doc, idx, text,
              some (embeddingToBlob emb), meta⟩ : ChunkRow) :=
          List.find?_cons_of_pos _ (by simp)
        simp only [hfind, Option.none_or, hfind2, Option.map_some']
        by_cases hr : st.nextRowid ≠ 0
        · rw [if_pos hr]
          by_cases h2 : sched (n + 2)
          · simp only [h2, if_true]
            right; left
            exact ⟨n + 2 + 1, _, rfl, rfl⟩
          · simp only [h2, Bool.false_eq_true, if_false]
            right; right
            exact ⟨n + 2 + 1, _, rfl, rfl⟩
        · rw [if_neg hr]
          right; right
          exact ⟨n + 1 + 1, _, rfl, rfl⟩
      · simp only [hfind, Option.or, Option.map_some']
        by_cases hr : r0.rowid ≠ 0
        · rw [if_pos hr]
          by_cases h2 : sched (n + 2)
          · simp only [h2, if_true]
            right; left
            exact ⟨n + 2 + 1, _, rfl, rfl⟩
          · simp only [h2, Bool.false_eq_true, if_false]
            right; right
            exact ⟨n + 2 + 1, _, rfl, rfl⟩
        · rw [if_neg hr]
          right; right
          exact ⟨n + 1 + 1, _, rfl, rfl⟩

theorem docTexts_of_append {st st' : DBState} {doc : Nat} {row : ChunkRow}
    (hch : st'.chunks = st.chunks ++ [row]) (hdoc : row.document_id = doc) :
    docTexts st' doc = docTexts st doc ++ [row.text] := by
  simp [docTexts, docChunks, hch, List.filter_append, hdoc]

theorem storeBatchGo_prefix (sched : Nat → Bool) (doc : Nat) :
    ∀ (l : List (BatchChunk × List Nat)) (i n : Nat) (st : DBState),
      (∀ cids n' st', storeBatchGo sched doc i l n st = .ok (cids, n', st') →
          docTexts st' doc = docTexts st doc ++ l.map (fun ce => ce.1.text) ∧
          cids.length = l.length) ∧
      (∀ n' st', storeBatchGo sched doc i l n st = .error (n', st') →
          ∃ k ≤ l.length,
            docTexts st' doc
              = docTexts st doc ++ (l.take k).map (fun ce => ce.1.text)) := by
  intro l
  induction l with
  | nil =>
    intro i n st
    constructor
    · intro cids n' st' h
      rw [storeBatchGo] at h
      obtain ⟨h1, h2, h3⟩ := by simpa using h
      subst h1 h3
      simp
    · intro n' st' h
      rw [storeBatchGo] at h
      simp at h
  | cons ce rest ih =>
    intro i n st
    obtain ⟨c, emb⟩ := ce
    constructor
    · intro cids n' st' h
      rw [storeBatchGo] at h
      rcases hsc : storeChunk sched n st doc (c.chunk_index.getD i) c.text emb
          c.metadata with e | ⟨cid, n1, st1⟩
      · rw [hsc] at h
        simp at h
      · rcases hrest : storeBatchGo sched doc (i + 1) rest n1 st1
            with e2 | ⟨cids2, n2, st2⟩
        · simp only [hsc, hrest] at h
          exact Except.noConfusion h
        · simp only [hsc, hrest] at h
          obtain ⟨h1, h2, h3⟩ := by simpa using h
          subst h3 h1
          have hstep : docTexts st1 doc = docTexts st doc ++ [c.text] := by
            rcases storeChunk_outcomes sched n st doc (c.chunk_index.getD i)
                c.text emb c.metadata with h4 | ⟨n4, st4, h4, hch⟩ | ⟨n4, st4, h4, hch⟩
            · rw [hsc] at h4
              simp at h4
            · rw [hsc] at h4
              simp at h4
            · rw [hsc] at h4
              obtain ⟨_, h5, h6⟩ := by simpa using h4
              subst h5 h6
              exact docTexts_of_append hch rfl
          obtain ⟨ha, hb⟩ := (ih (i + 1) n1 st1).1 cids2 n2 st2 hrest
          refine ⟨?_, by simp [hb]⟩
          rw [ha, hstep]
          simp
    · intro n' st' h
      rw [storeBatchGo] at h
      rcases hsc : storeChunk sched n st doc (c.chunk_index.getD i) c.text emb
          c.metadata with ⟨n1, st1⟩ | ⟨cid, n1, st1⟩
      · rw [hsc] at h
        obtain ⟨h1, h2⟩ := by simpa using h
        subst h1 h2
        rcases storeChunk_outcomes sched n st doc (c.chunk_index.getD i)
            c.text emb c.metadata with h4 | ⟨n4, st4, h4, hch⟩ | ⟨n4, st4, h4, hch⟩
        · rw [hsc] at h4
          obtain ⟨_, h5⟩ := by simpa using h4
          subst h5
          exact ⟨0, Nat.zero_le _, by simp⟩
        · rw [hsc] at h4
          obtain ⟨_, h5⟩ := by simpa using h4
          subst h5
          refine ⟨1, by simp, ?_⟩
          rw [docTexts_of_append hch rfl]
          simp
        · rw [hsc] at h4
          simp at h4
      · rcases hrest : storeBatchGo sched doc (i + 1) rest n1 st1
            with ⟨n2, st2⟩ | ⟨cids2, n2, st2⟩
        · simp only [hsc, hrest] at h
          obtain ⟨h1, h2⟩ := by simpa using h
          subst h1 h2
          have hstep : docTexts st1 doc = docTexts st doc ++ [c.text] := by
            rcases storeChunk_outcomes sched n st doc (c.chunk_index.getD i)
                c.text emb c.metadata with h4 | ⟨n4, st4, h4, hch⟩ | ⟨n4, st4, h4, hch⟩
            · rw [hsc] at h4
              simp at h4
            · rw [hsc] at h4
              simp at h4
            · rw [hsc] at h4
              obtain ⟨_, h5, h6⟩ := by simpa using h4
              subst h5 h6
              exact docTexts_of_append hch rfl
          obtain ⟨k, hk, hkeq⟩ := (ih (i + 1) n1 st1).2 n2 st2 hrest
          refine ⟨k + 1, by simpa using hk, ?_⟩
          rw [hkeq, hstep]
          simp
        · simp only [hsc, hrest] at h
          exact Except.noConfusion h

/-- C6, counterexample: the claim "store_chunks_batch is all-or-nothing per
document" is false.  With an empty store, a two-chunk batch whose fourth db
call (the second chunk's INSERT) raises leaves the first chunk durably
persisted for the document — its row and its lexical-index entry both
remain. -/
theorem C6_counterexample :
    storeChunksBatch (fun k => k == 3) 0 ⟨[], [], [], 1, 0⟩ 1
        [⟨none, ['a'], none⟩, ⟨none, ['b'], none⟩] [[0], [0]]
      = .error (4, ⟨[⟨1, 0, 1, 0, ['a'], some [0, 0, 0, 0], none⟩], [],
          [(1, ['a'])], 2, 1⟩) ∧
    (docChunks ⟨[⟨1, 0, 1, 0, ['a'], some [0, 0, 0, 0], none⟩], [],
        [(1, ['a'])], 2, 1⟩ 1).length = 1 := by
  decide

/-- C6 (amended): `store_chunks_batch` stores the zipped chunk/embedding
pairs sequentially with no transaction.  When every underlying db call
succeeds it appends exactly one chunk row per pair, in order, returning one
id per pair; when a call fails, the batch prefix already stored remains
persisted for the document (nothing is rolled back), so the operation is not
all-or-nothing. -/
theorem C6_amended (sched : Nat → Bool) (n : Nat) (st : DBState) (doc : Nat)
    (chunks : List BatchChunk) (embeddings : List (List Nat)) :
    (∀ cids n' st',
        storeChunksBatch sched n st doc chunks embeddings = .ok (cids, n', st') →
        docTexts st' doc
          = docTexts st doc ++ (chunks.zip embeddings).map (fun ce => ce.1.text) ∧
        cids.length = (chunks.zip embeddings).length) ∧
    (∀ n' st',
        storeChunksBatch sched n st doc chunks embeddings = .error (n', st') →
        ∃ k ≤ (chunks.zip embeddings).length,
          docTexts st' doc
            = docTexts st doc ++ ((chunks.zip embeddings).take k).map
                (fun ce => ce.1.text)) :=
  storeBatchGo_prefix sched doc (chunks.zip embeddings) 0 n st

/-- Witness for `C6_amended`: a fully successful one-chunk batch stores
exactly that chunk. -/
theorem C6_amended_witness :
    docTexts ⟨[⟨1, 0, 1, 0, ['a'], some [0, 0, 0, 0], none⟩], [],
        [(1, ['a'])], 2, 1⟩ 1
      = docTexts ⟨[], [], [], 1, 0⟩ 1
        ++ (([⟨none, ['a'], none⟩] : List BatchChunk).zip [[(0 : Nat)]]).map
            (fun ce => ce.1.text) ∧
    [(0 : Nat)].length
      = (([⟨none, ['a'], none⟩] : List BatchChunk).zip [[(0 : Nat)]]).length :=
  (C6_amended (fun _ => false) 0 ⟨[], [], [], 1, 0⟩ 1
      [⟨none, ['a'], none⟩] [[0]]).1 [0] 3
    ⟨[⟨1, 0, 1, 0, ['a'], some [0, 0, 0, 0], none⟩], [], [(1, ['a'])], 2, 1⟩
    (by decide)

/-!
### Claim C7 — the chunk-row / lexical-index invariant
-/

/-- Sanity invariants of the store that SQLite guarantees: rowids start at 1,
allocated rowids and chunk ids are below their counters, rowids are unique. -/
structure WFState (st : DBState) : Prop where
  rowid_pos : 1 ≤ st.nextRowid
  chunks_bound : ∀ r ∈ st.chunks,
    1 ≤ r.rowid ∧ r.rowid < st.nextRowid ∧ r.id < st.nextChunkId
  rowid_nodup : (st.chunks.map ChunkRow.rowid).Nodup
  fts_bound : ∀ e ∈ st.fts, e.1 < st.nextRowid

/-- The claimed invariant: a lexical-index entry exists for a rowid iff a
chunk row with that rowid exists. -/
def FtsInv (st : DBState) : Prop :=
  ∀ rid, (∃ e ∈ st.fts, e.1 = rid) ↔ (∃ r ∈ st.chunks, r.rowid = rid)

theorem storeChunk_success_state (sched : Nat → Bool) (n : Nat) (st : DBState)
    (doc idx : Nat) (text : Str) (emb : List Nat) (meta : Option Meta)
    (hwf : WFState st) :
    ∀ cid n' st', storeChunk sched n st doc idx text emb meta = .ok (cid, n', st') →
      cid = st.nextChunkId ∧
      st' = ⟨st.chunks ++ [⟨st.nextRowid, st.nextChunkId, doc, idx, text,
                some (embeddingToBlob emb), meta⟩],
             st.documents, st.fts ++ [(st.nextRowid, text)],
             st.nextRowid + 1, st.nextChunkId + 1⟩ := by
  intro cid n' st' h
  unfold storeChunk dbCall at h
  by_cases h0 : sched n
  · simp [h0] at h
  · simp only [h0, Bool.false_eq_true, if_false] at h
    by_cases h1 : sched (n + 1)
    · simp [h1] at h
    · simp only [h1, Bool.false_eq_true, if_false] at h
      have hfind : List.find? (fun r : ChunkRow => r.id == st.nextChunkId)
          st.chunks = none := by
        rw [List.find?_eq_none]
        intro r hr
        have hb := (hwf.chunks_bound r hr).2.2
        simp only [beq_iff_eq]
        omega
      have hfind2 : List.find? (fun r : ChunkRow => r.id == st.nextChunkId)
          ([⟨st.nextRowid, st.nextChunkId, doc, idx, text,
            some (embeddingToBlob emb), meta⟩] : List ChunkRow)
          = some (⟨st.nextRowid, st.nextChunkId, doc, idx, text,
            some (embeddingToBlob emb), meta⟩ : ChunkRow) :=
        List.find?_cons_of_pos _ (by simp)
      rw [List.find?_append] at h
      simp only [hfind, Option.none_or, hfind2, Option.map_some'] at h
      have hrid : st.nextRowid ≠ 0 := by
        have := hwf.rowid_pos
        omega
      rw [if_pos hrid] at h
      by_cases h2 : sched (n + 2)
      · simp [h2] at h
      · simp only [h2, Bool.false_eq_true, if_false] at h
        obtain ⟨hc, _, hs⟩ := by simpa using h
        exact ⟨hc.symm, hs.symm⟩

theorem deleteFtsLoop_success (sched : Nat → Bool) :
    ∀ (rids : List Nat) (n : Nat) (st : DBState) (n' : Nat) (st' : DBState),
      deleteFtsLoop sched rids n st = .ok (n', st') →
      st' = { st with fts := st.fts.filter (fun e => !(rids.contains e.1)) } := by
  intro rids
  induction rids with
  | nil =>
    intro n st n' st' h
    rw [deleteFtsLoop] at h
    obtain ⟨_, h2⟩ := by simpa using h
    rw [← h2]
    cases st
    simp
  | cons r rest ih =>
    intro n st n' st' h
    rw [deleteFtsLoop] at h
    unfold dbCall at h
    by_cases h0 : sched n
    · simp [h0] at h
    · simp only [h0, Bool.false_eq_true, if_false] at h
      have := ih (n + 1) _ n' st' h
      rw [this]
      simp only [List.filter_filter]
      congr 1
      apply List.filter_congr
      intro e _
      simp only [List.contains_cons, Bool.not_or]
      rw [Bool.and_comm]

theorem deleteDocumentChunks_success (sched : Nat → Bool) (n : Nat)
    (st : DBState) (doc : Nat) :
    ∀ n' st', deleteDocumentChunks sched n st doc = .ok (n', st') →
      st' = ⟨st.chunks.filter (fun r => !(r.document_id == doc)),
             st.documents,
             st.fts.filter (fun e =>
               !(((st.chunks.filter (fun r => r.document_id == doc)).map
                   ChunkRow.rowid).contains e.1)),
             st.nextRowid, st.nextChunkId⟩ := by
  intro n' st' h
  unfold deleteDocumentChunks dbCall at h
  by_cases h0 : sched n
  · simp [h0] at h
  · simp only [h0, Bool.false_eq_true, if_false] at h
    by_cases h1 : sched (n + 1)
    · simp [h1] at h
    · simp only [h1, Bool.false_eq_true, if_false] at h
      have := deleteFtsLoop_success sched _ _ _ _ _ h
      rw [this]

/-- C7, counterexample: the claim that the store always maintains
"lexical-index entry exists iff chunk row exists" is false, because no
transaction ties the two writes together: when the FTS insert of
`store_chunk` (the third db call) fails, the chunk row — already durable in
autocommit mode — is left without a lexical entry. -/
theorem C7_counterexample :
    storeChunk (fun k => k == 2) 0 ⟨[], [], [], 1, 0⟩ 1 0 ['a'] [0] none
      = .error (3, ⟨[⟨1, 0, 1, 0, ['a'], some [0, 0, 0, 0], none⟩], [], [], 2, 1⟩) ∧
    ¬ FtsInv ⟨[⟨1, 0, 1, 0, ['a'], some [0, 0, 0, 0], none⟩], [], [], 2, 1⟩ := by
  constructor
  · decide
  · intro h
    obtain ⟨e, he, _⟩ := (h 1).mpr
      ⟨⟨1, 0, 1, 0, ['a'], some [0, 0, 0, 0], none⟩, by simp, rfl⟩
    simp at he

/-- C7 (amended): on success paths the store does maintain the invariant:
a completed `store_chunk` appends exactly one chunk row and one lexical
entry keyed by the same rowid, and a completed `delete_document_chunks`
removes every chunk row of the document together with every lexical entry of
those rows, preserving "lexical entry iff chunk row" and leaving no
orphans — but a PersistenceError between the paired writes/deletes (which
are not wrapped in any transaction) breaks the invariant. -/
theorem C7_amended (sched : Nat → Bool) (n : Nat) (st : DBState)
    (hwf : WFState st) (hinv : FtsInv st) :
    (∀ doc idx text emb meta cid n' st',
        storeChunk sched n st doc idx text emb meta = .ok (cid, n', st') →
        st'.chunks = st.chunks ++ [⟨st.nextRowid, st.nextChunkId, doc, idx, text,
            some (embeddingToBlob emb), meta⟩] ∧
        st'.fts = st.fts ++ [(st.nextRowid, text)] ∧
        WFState st' ∧ FtsInv st') ∧
    (∀ doc n' st', deleteDocumentChunks sched n st doc = .ok (n', st') →
        docChunks st' doc = [] ∧ WFState st' ∧ FtsInv st') := by
  constructor
  · intro doc idx text emb meta cid n' st' h
    obtain ⟨hcid, hst⟩ :=
      storeChunk_success_state sched n st doc idx text emb meta hwf cid n' st' h
    subst hst
    refine ⟨rfl, rfl, ?_, ?_⟩
    · have hpos := hwf.rowid_pos
      refine ⟨by dsimp only; omega, ?_, ?_, ?_⟩
      · intro r hr
        dsimp only at hr ⊢
        simp only [List.mem_append, List.mem_singleton] at hr
        rcases hr with hr | rfl
        · obtain ⟨t1, t2, t3⟩ := hwf.chunks_bound r hr
          exact ⟨t1, by omega, by omega⟩
        · exact ⟨hpos, by dsimp only; omega, by dsimp only; omega⟩
      · dsimp only
        simp only [List.map_append, List.map_cons, List.map_nil]
        rw [List.nodup_append]
        refine ⟨hwf.rowid_nodup, List.nodup_singleton _, ?_⟩
        intro a ha hb
        simp only [List.mem_singleton] at hb
        subst hb
        obtain ⟨r, hr, hrid⟩ := List.mem_map.mp ha
        have := (hwf.chunks_bound r hr).2.1
        omega
      · intro e he
        dsimp only at he ⊢
        simp only [List.mem_append, List.mem_singleton] at he
        rcases he with he | rfl
        · have := hwf.fts_bound e he
          omega
        · dsimp only
          omega
    · intro rid
      constructor
      · intro ⟨e, he, hrid⟩
        simp only [List.mem_append, List.mem_singleton] at he
        rcases he with he | rfl
        · obtain ⟨r, hr, h2⟩ := (hinv rid).mp ⟨e, he, hrid⟩
          exact ⟨r, by simp [hr], h2⟩
        · exact ⟨⟨st.nextRowid, st.nextChunkId, doc, idx, text,
            some (embeddingToBlob emb), meta⟩, by simp, hrid⟩
      · intro ⟨r, hr, hrid⟩
        simp only [List.mem_append, List.mem_singleton] at hr
        rcases hr with hr | rfl
        · obtain ⟨e, he, h2⟩ := (hinv rid).mpr ⟨r, hr, hrid⟩
          exact ⟨e, by simp [he], h2⟩
        · exact ⟨(st.nextRowid, text), by simp, hrid⟩
  · intro doc n' st' h
    have hst := deleteDocumentChunks_success sched n st doc n' st' h
    subst hst
    refine ⟨?_, ?_, ?_⟩
    · simp only [docChunks, List.filter_filter]
      rw [List.filter_eq_nil_iff]
      intro r _
      simp
    · refine ⟨hwf.rowid_pos, ?_, ?_, ?_⟩
      · intro r hr
        exact hwf.chunks_bound r (List.mem_of_mem_filter hr)
      · exact ((List.filter_sublist _).map ChunkRow.rowid).nodup hwf.rowid_nodup
      · intro e he
        exact hwf.fts_bound e (List.mem_of_mem_filter he)
    · intro rid
      constructor
      · intro ⟨e, he, hrid⟩
        rw [List.mem_filter] at he
        obtain ⟨hem, hp⟩ := he
        have hp2 : e.1 ∉ (st.chunks.filter
            (fun r => r.document_id == doc)).map ChunkRow.rowid := by
          simpa using hp
        obtain ⟨r, hr, h2⟩ := (hinv rid).mp ⟨e, hem, hrid⟩
        refine ⟨r, ?_, h2⟩
        rw [List.mem_filter]
        refine ⟨hr, ?_⟩
        suffices hne : ¬ r.document_id = doc by simpa using hne
        intro hrdoc
        have hmem : rid ∈ (st.chunks.filter
            (fun r => r.document_id == doc)).map ChunkRow.rowid := by
          rw [← h2]
          exact List.mem_map_of_mem _ (List.mem_filter.mpr ⟨hr, by simp [hrdoc]⟩)
        rw [hrid] at hp2
        exact hp2 hmem
      · intro ⟨r, hr, hrid⟩
        rw [List.mem_filter] at hr
        obtain ⟨hrm, hrp⟩ := hr
        have hrp2 : ¬ r.document_id = doc := by simpa using hrp
        obtain ⟨e, he, h2⟩ := (hinv rid).mpr ⟨r, hrm, hrid⟩
        refine ⟨e, ?_, h2⟩
        rw [List.mem_filter]
        refine ⟨he, ?_⟩
        suffices hns : e.1 ∉ (st.chunks.filter
            (fun r => r.document_id == doc)).map ChunkRow.rowid by simpa using hns
        intro hmem
        obtain ⟨d, hd, hdr⟩ := List.mem_map.mp hmem
        rw [List.mem_filter] at hd
        obtain ⟨hd2, hdp⟩ := hd
        have hdd : d = r := List.inj_on_of_nodup_map hwf.rowid_nodup hd2 hrm
          (by rw [hdr, h2, hrid])
        subst hdd
        simp only [beq_iff_eq] at hdp
        exact hrp2 hdp

/-- Witness for `C7_amended`: a fully successful `store_chunk` on an empty
well-formed store yields a store that satisfies the invariant. -/
theorem C7_amended_witness :
    WFState ⟨[⟨1, 0, 1, 0, ['a'], some [0, 0, 0, 0], none⟩], [],
        [(1, ['a'])], 2, 1⟩ ∧
    FtsInv ⟨[⟨1, 0, 1, 0, ['a'], some [0, 0, 0, 0], none⟩], [],
        [(1, ['a'])], 2, 1⟩ := by
  have h := (C7_amended (fun _ => false) 0 ⟨[], [], [], 1, 0⟩
      ⟨by decide, by simp, by simp, by simp⟩
      (fun rid => by simp)).1 1 0 ['a'] [0] none 0 3
    ⟨[⟨1, 0, 1, 0, ['a'], some [0, 0, 0, 0], none⟩], [], [(1, ['a'])], 2, 1⟩
    (by decide)
  exact ⟨h.2.2.1, h.2.2.2⟩

/-!
## cosine_similarity (src/backend/services/search.py lines 24-33)

The one genuinely numerical function; modelled over the reals.  `np.dot` is
the sum of pairwise products, `np.linalg.norm` the Euclidean norm, and the
function returns 0.0 whenever either norm is 0 — the guard that prevents any
NaN/division by zero, making the function total.
-/

def dotList (v w : List ℝ) : ℝ := (List.zipWith (· * ·) v w).sum

noncomputable def normL (v : List ℝ) : ℝ := Real.sqrt (dotList v v)

open Classical in
noncomputable def cosine_similarity (v w : List ℝ) : ℝ :=
  if normL v = 0 ∨ normL w = 0 then 0 else dotList v w / (normL v * normL w)

theorem dotList_self_nonneg (v : List ℝ) : 0 ≤ dotList v v := by
  rw [dotList, List.zipWith_same]
  refine List.sum_nonneg ?_
  intro x hx
  obtain ⟨a, _, rfl⟩ := List.mem_map.mp hx
  exact mul_self_nonneg a

/-- C5, counterexample: the claim "for every vector v,
cosine_similarity(v, v) returns 1.0 within 1e-6" is false at the zero
vector: there the zero-norm guard returns exactly 0.0, which is not within
1e-6 of 1. -/
theorem C5_counterexample :
    cosine_similarity [(0 : ℝ)] [(0 : ℝ)] = 0 ∧
    ¬ |cosine_similarity [(0 : ℝ)] [(0 : ℝ)] - 1| ≤ 1e-6 := by
  have h : normL [(0 : ℝ)] = 0 := by
    simp [normL, dotList]
  constructor
  · rw [cosine_similarity, if_pos (Or.inl h)]
  · rw [cosine_similarity, if_pos (Or.inl h)]
    norm_num

/-- C5 (amended): for every vector of nonzero norm, cosine similarity with
itself is exactly 1 (so certainly within 1e-6 of 1.0); and whenever either
argument has zero norm — in particular for every all-zero vector — the
function returns exactly 0, by the explicit guard, with no NaN and no
exception (the function is total and division by a zero denominator never
happens). -/
theorem C5_amended :
    (∀ v : List ℝ, normL v ≠ 0 → cosine_similarity v v = 1) ∧
    (∀ v w : List ℝ, normL v = 0 ∨ normL w = 0 → cosine_similarity v w = 0) := by
  constructor
  · intro v hv
    rw [cosine_similarity, if_neg (by tauto)]
    have hd : normL v * normL v = dotList v v :=
      Real.mul_self_sqrt (dotList_self_nonneg v)
    rw [hd]
    have hdz : dotList v v ≠ 0 := by
      intro h0
      apply hv
      rw [normL, h0, Real.sqrt_zero]
    exact div_self hdz
  · intro v w h
    rw [cosine_similarity, if_pos h]

/-- Witness for `C5_amended`: the unit vector `[1]` has self-similarity 1,
and the zero vector `[0]` against `[2]` gives exactly 0. -/
theorem C5_amended_witness :
    cosine_similarity [(1 : ℝ)] [(1 : ℝ)] = 1 ∧
    cosine_similarity [(0 : ℝ)] [(2 : ℝ)] = 0 :=
  ⟨C5_amended.1 [(1 : ℝ)] (by simp [normL, dotList]),
   C5_amended.2 [(0 : ℝ)] [(2 : ℝ)] (Or.inl (by simp [normL, dotList]))⟩

/-!
## Search data model and the regex helpers of search.py

All regex scans are modelled character by character over ASCII.  For the
fixed-width, word-character-only patterns (PAN, GSTIN, year) a char-by-char
scan carrying the previous character is exactly `re.findall`: a match
consists solely of word characters, so no position inside or immediately
after a match passes the leading `\b` test, and non-overlapping scanning
coincides with scanning every position.
-/

/-- A candidate/search-result record: the dict keys produced by the engines
and read by the passes. -/
structure SearchItem where
  chunk_id : Nat
  document_id : Nat
  chunk_index : Nat
  text : Str
  similarity : Option ℚ
  rank : Option ℚ
  combined_score : Option ℚ
  semantic_score : Option ℚ
  keyword_score : Option ℚ
  metadata : Option Meta
  client_id : Option Str
  period : Option Str
  category : Option Str
  doc_type : Option Str
deriving DecidableEq, Repr

def defaultItem : SearchItem :=
  ⟨0, 0, 0, [], none, none, none, none, none, none, none, none, none, none⟩

/-- The filter dict.  All-`none` models both `None` and `{}` (they behave
identically: an absent key never filters). -/
structure Filters where
  document_id : Option Nat
  client_id : Option Str
  period : Option Str
  category : Option Str
  doc_type : Option Str
deriving DecidableEq, Repr

def noFilters : Filters := ⟨none, none, none, none, none⟩

def lowerStr (s : Str) : Str := s.map Char.toLower

def upperStr (s : Str) : Str := s.map Char.toUpper

/-- Python `needle in hay` (substring). -/
def containsSub (needle : Str) : Str → Bool
  | [] => needle.isEmpty
  | c :: rest => startsWith (c :: rest) needle || containsSub needle rest

/-- `\w` (ASCII). -/
def isWordChar (c : Char) : Bool := c.isAlphanum || c == '_'

def isUpperAlpha (c : Char) : Bool := 'A' ≤ c && c ≤ 'Z'

/-- Match a list of single-character classes greedily; returns the matched
characters and the remainder. -/
def matchClasses : List (Char → Bool) → Str → Option (Str × Str)
  | [], s => some ([], s)
  | _ :: _, [] => none
  | p :: ps, c :: rest =>
    if p c then (matchClasses ps rest).map (fun mr => (c :: mr.1, mr.2)) else none

/-- `re.findall` of a fixed-width all-word-character pattern wrapped in
`\b...\b`, scanning char by char with the previous character in hand. -/
def findAllFixedGo (classes : List (Char → Bool)) : Option Char → Str → List Str
  | _, [] => []
  | prev, c :: rest =>
    let bb := match prev with | none => true | some p => !isWordChar p
    match (if bb then matchClasses classes (c :: rest) else none) with
    | some (m, r) =>
      if (match r with | [] => true | d :: _ => !isWordChar d) then
        m :: findAllFixedGo classes (some c) rest
      else findAllFixedGo classes (some c) rest
    | none => findAllFixedGo classes (some c) rest

def findAllFixed (classes : List (Char → Bool)) (s : Str) : List Str :=
  findAllFixedGo classes none s

/-- `\b([A-Z]{5}\d{4}[A-Z])\b`. -/
def panClasses : List (Char → Bool) :=
  List.replicate 5 isUpperAlpha ++ List.replicate 4 Char.isDigit ++ [isUpperAlpha]

/-- `\b([0-9A-Z]{15})\b`. -/
def gstinClasses : List (Char → Bool) :=
  List.replicate 15 (fun c => Char.isDigit c || isUpperAlpha c)

/-- `\b(20\d{2})\b`. -/
def yearClasses : List (Char → Bool) :=
  [(· == '2'), (· == '0'), Char.isDigit, Char.isDigit]

/-- Case-insensitive ASCII prefix test (re.IGNORECASE literals). -/
def startsWithCI : Str → Str → Bool
  | _, [] => true
  | [], _ :: _ => false
  | c :: s, p :: ps => (c.toLower == p.toLower) && startsWithCI s ps

/-- The invoice-number character class (uppercase letters, digits, hyphen,
slash) under re.IGNORECASE, so lowercase letters match too. -/
def invClass (c : Char) : Bool :=
  isUpperAlpha c || Char.isDigit c || c == '-' || c == '/' || ('a' ≤ c && c ≤ 'z')

/-- After an `invoice`/`bill` keyword: `[\s#]*:?\s*` then the captured
one-or-more run of `invClass` characters.  The character classes are
pairwise disjoint with `:` and with the capture class, so the backtracking
regex is equivalent to this greedy deterministic scan: maximal `[\s#]` run,
optional `:`, maximal whitespace run, then at least one capture-class
character (greedy). -/
def matchInvoiceTail (s : Str) : Option (Str × Str) :=
  let a1 := s.dropWhile (fun c => isWS c || c == '#')
  let a2 := match a1 with | ':' :: t => t | _ => a1
  let a3 := a2.dropWhile isWS
  let cap := a3.takeWhile invClass
  if cap.isEmpty then none else some (cap, a3.dropWhile invClass)

/-- The invoice-number findall of `_has_entity_matches` (keyword, separator
run, captured `invClass` run, IGNORECASE): leftmost, non-overlapping;
scanning resumes after each whole match.  The fuel starts at the string
length, which bounds the number of steps. -/
def findInvoicesGo : Nat → Str → List Str
  | 0, _ => []
  | _ + 1, [] => []
  | fuel + 1, c :: rest =>
    let kwLen : Option Nat :=
      if startsWithCI (c :: rest) ("invoice".toList) then some 7
      else if startsWithCI (c :: rest) ("bill".toList) then some 4
      else none
    match kwLen with
    | some k =>
      match matchInvoiceTail ((c :: rest).drop k) with
      | some (cap, r) => cap :: findInvoicesGo fuel r
      | none => findInvoicesGo fuel rest
    | none => findInvoicesGo fuel rest

def findInvoices (q : Str) : List Str := findInvoicesGo q.length q

/-- One quarter-pattern match attempt at a position:
`(Q[1-4]|quarter\s*[1-4])` with a trailing `\b`, IGNORECASE; the first
alternative is tried first.  Returns (captured text, rest). -/
def quarterMatchAt (s : Str) : Option (Str × Str) :=
  match s with
  | c :: d :: r =>
    if c.toLower == 'q' && ('1' ≤ d && d ≤ '4')
        && (match r with | [] => true | e :: _ => !isWordChar e) then
      some ([c, d], r)
    else quarterAltAt (c :: d :: r)
  | _ => none
where
  quarterAltAt (s : Str) : Option (Str × Str) :=
    if startsWithCI s ("quarter".toList) then
      let after := s.drop 7
      let ws := after.takeWhile isWS
      match after.dropWhile isWS with
      | d :: r =>
        if ('1' ≤ d && d ≤ '4')
            && (match r with | [] => true | e :: _ => !isWordChar e) then
          some (s.take 7 ++ ws ++ [d], r)
        else none
      | [] => none
    else none

/-- The quarter findall: char-by-char with the leading-`\b` test; inside a
match every further start position fails the tests (argued as for the fixed
patterns), so this coincides with non-overlapping scanning. -/
def findQuartersGo : Option Char → Str → List Str
  | _, [] => []
  | prev, c :: rest =>
    let bb := match prev with | none => true | some p => !isWordChar p
    match (if bb then quarterMatchAt (c :: rest) else none) with
    | some (m, _) => m :: findQuartersGo (some c) rest
    | none => findQuartersGo (some c) rest

def monthNames : List Str :=
  ["Jan".toList, "Feb".toList, "Mar".toList, "Apr".toList, "May".toList,
   "Jun".toList, "Jul".toList, "Aug".toList, "Sep".toList, "Oct".toList,
   "Nov".toList, "Dec".toList]

/-- One month-pattern match attempt:
`(Jan|...|Dec)[a-z]*\s+20\d{2}` with `\b` on both sides, IGNORECASE;
findall returns group 1, the month prefix as it appears.  `[a-z]*` (letters
under IGNORECASE), `\s+` and the year digits are pairwise disjoint classes,
so greedy scanning is deterministic. -/
def monthMatchAt (s : Str) : Option Str :=
  match monthNames.find? (fun m => startsWithCI s m) with
  | none => none
  | some _ =>
    let after := (s.drop 3).dropWhile Char.isAlpha
    let ws := after.takeWhile isWS
    if ws.isEmpty then none
    else
      match matchClasses yearClasses (after.dropWhile isWS) with
      | some (_, r) =>
        if (match r with | [] => true | e :: _ => !isWordChar e) then
          some (s.take 3)
        else none
      | none => none

def findMonthsGo : Option Char → Str → List Str
  | _, [] => []
  | prev, c :: rest =>
    let bb := match prev with | none => true | some p => !isWordChar p
    match (if bb then monthMatchAt (c :: rest) else none) with
    | some m => m :: findMonthsGo (some c) rest
    | none => findMonthsGo (some c) rest

/-- `MultiPassRetriever._extract_time_hints`: years, then quarters, then
"Month Year" month names. -/
def extractTimeHints (q : Str) : List Str :=
  findAllFixed yearClasses q ++ findQuartersGo none q ++ findMonthsGo none q

/-- `MultiPassRetriever._period_matches`. -/
def periodMatches (period : Str) (hints : List Str) : Bool :=
  hints.any (fun h => containsSub (lowerStr h) (lowerStr period))

/-- `MultiPassRetriever._has_entity_matches`.  The `if query_entities[...]:`
guards are subsumed: `any` over an empty match list is already false. -/
def hasEntityMatches (q : Str) (item : SearchItem) : Bool :=
  let qU := upperStr q
  let ents := match item.metadata with
    | some m => m.entities.getD emptyEntities
    | none => emptyEntities
  ((findAllFixed panClasses qU).any
      (fun p => (ents.pan_numbers.map upperStr).contains p)) ||
  ((findAllFixed gstinClasses qU).any
      (fun g => (ents.gstin_numbers.map upperStr).contains g)) ||
  ((findInvoices q).any
      (fun i => (ents.invoice_numbers.map upperStr).contains i))

/-- `[A-Za-z\s&]` of the vendor pattern. -/
def vendorClass (c : Char) : Bool := c.isAlpha || isWS c || c == '&'

/-- One attempt of `(?:from|vendor|supplier)[\s]*:?\s*([A-Z][A-Za-z\s&]{2,30})`
(IGNORECASE) at a position: keyword, maximal whitespace, optional `:`,
maximal whitespace, then a letter followed by 2 to 30 class characters
(greedy, nothing follows, so no backtracking).  Returns group(1).strip(). -/
def vendorMatchAt (s : Str) : Option Str :=
  let kwLen : Option Nat :=
    if startsWithCI s ("from".toList) then some 4
    else if startsWithCI s ("vendor".toList) then some 6
    else if startsWithCI s ("supplier".toList) then some 8
    else none
  match kwLen with
  | none => none
  | some k =>
    let a1 := (s.drop k).dropWhile isWS
    let a2 := match a1 with | ':' :: t => t | _ => a1
    let a3 := a2.dropWhile isWS
    match a3 with
    | c0 :: t =>
      if c0.isAlpha then
        let run := t.takeWhile vendorClass
        if run.length ≥ 2 then some (pyStrip (c0 :: run.take 30)) else none
      else none
    | [] => none

/-- `MultiPassRetriever._extract_vendor_from_text`: `re.search`, i.e. the
first position where the pattern matches. -/
def extractVendorFromText : Str → Option Str
  | [] => none
  | c :: rest =>
    match vendorMatchAt (c :: rest) with
    | some v => some v
    | none => extractVendorFromText rest

/-!
## Search engines (src/backend/services/search.py)

Cosine similarity over IEEE floats is not exactly representable, so the
composite "deserialize blob, take cosine with the query embedding" is an
oracle parameter `simO`; likewise FTS5 `MATCH` + `bm25` is the oracle
`ftsO` (rowid to rank, `none` when the row does not match).  Every pipeline
theorem below is quantified over these oracles.  Python's `list.sort` is
stable, and a stable sort is a unique function of the key order, so it is
modelled by insertion sort with the non-strict key relation.
-/

def docOf (st : DBState) (document_id : Nat) : Option DocRow :=
  st.documents.find? (fun d => d.id == document_id)

/-- The WHERE clauses of `SemanticSearch.search` (LEFT JOIN semantics: a
missing document row makes any `d.x = ?` comparison fail, as NULL does). -/
def semFilterOk (st : DBState) (f : Filters) (r : ChunkRow) : Bool :=
  (match f.document_id with | none => true | some v => r.document_id == v) &&
  (match f.client_id with
    | none => true
    | some v => match docOf st r.document_id with
      | none => false | some d => d.client_id == v) &&
  (match f.period with
    | none => true
    | some v => match docOf st r.document_id with
      | none => false | some d => d.period == some v) &&
  (match f.category with
    | none => true
    | some v => match docOf st r.document_id with
      | none => false | some d => d.category == some v)

def mkSemItem (st : DBState) (r : ChunkRow) (sim : ℚ) : SearchItem :=
  ⟨r.id, r.document_id, r.chunk_index, r.text, some sim, none, none, none, none,
   r.metadata,
   (docOf st r.document_id).map DocRow.client_id,
   (docOf st r.document_id).bind DocRow.period,
   (docOf st r.document_id).bind DocRow.category,
   (docOf st r.document_id).bind DocRow.doc_type⟩

/-- `SemanticSearch.search`: scan all (filtered) chunks, skip falsy blobs,
keep results at or above the threshold, sort by similarity descending
(stable), return the top `limit`. -/
def semanticSearch (simO : List Nat → List Nat → ℚ) (st : DBState)
    (qe : List Nat) (limit : Nat) (threshold : ℚ) (f : Filters) :
    List SearchItem :=
  let rows := st.chunks.filter (semFilterOk st f)
  let results := rows.filterMap (fun r =>
    match r.embedding with
    | none => none
    | some blob =>
      if blob.isEmpty then none
      else if simO qe blob ≥ threshold then some (mkSemItem st r (simO qe blob))
      else none)
  (results.insertionSort
    (fun a b => (a.similarity.getD 0) ≥ (b.similarity.getD 0))).take limit

/-- The WHERE clauses of `FullTextSearch.search` (document_id, client_id and
period only — no category clause there). -/
def ftsFilterOk (st : DBState) (f : Filters) (r : ChunkRow) : Bool :=
  (match f.document_id with | none => true | some v => r.document_id == v) &&
  (match f.client_id with
    | none => true
    | some v => match docOf st r.document_id with
      | none => false | some d => d.client_id == v) &&
  (match f.period with
    | none => true
    | some v => match docOf st r.document_id with
      | none => false | some d => d.period == some v)

def mkFtsItem (st : DBState) (r : ChunkRow) (rank : ℚ) : SearchItem :=
  ⟨r.id, r.document_id, r.chunk_index, r.text, none, some rank, none, none, none,
   r.metadata,
   (docOf st r.document_id).map DocRow.client_id,
   (docOf st r.document_id).bind DocRow.period,
   (docOf st r.document_id).bind DocRow.category,
   (docOf st r.document_id).bind DocRow.doc_type⟩

/-- `FullTextSearch.search`: the FTS rows matched by the query (oracle),
joined back to the chunk rows by rowid, filtered, ordered by rank ascending
(`bm25`: lower is better), limited. -/
def fullTextSearch (ftsO : Str → Nat → Option ℚ) (st : DBState) (q : Str)
    (limit : Nat) (f : Filters) : List SearchItem :=
  let matched := st.fts.filterMap (fun e =>
    match ftsO q e.1 with
    | none => none
    | some rank =>
      match st.chunks.find? (fun r => r.rowid == e.1) with
      | none => none
      | some r => if ftsFilterOk st f r then some (mkFtsItem st r rank) else none)
  (matched.insertionSort (fun a b => (a.rank.getD 0) ≤ (b.rank.getD 0))).take limit

def maxQ (l : List ℚ) : ℚ := l.foldl max (l.headD 0)

def minQ (l : List ℚ) : ℚ := l.foldl min (l.headD 0)

/-- The semantic min/range of the merge step of `HybridSearch.search`
(`max - min if max != min else 1.0`; `1.0` when there are no semantic
results, where the values are never used). -/
def semMinOf (sem : List SearchItem) : ℚ :=
  minQ (sem.map (fun r => r.similarity.getD 0))

def semRangeOf (sem : List SearchItem) : ℚ :=
  if sem.isEmpty then 1
  else if maxQ (sem.map (fun r => r.similarity.getD 0)) ≠ semMinOf sem then
    maxQ (sem.map (fun r => r.similarity.getD 0)) - semMinOf sem
  else 1

/-- `(similarity - min_semantic) / semantic_range if semantic_range > 0
else 0.0`. -/
def semNormScore (sem : List SearchItem) (x : ℚ) : ℚ :=
  if semRangeOf sem > 0 then (x - semMinOf sem) / semRangeOf sem else 0

def rankMinOf (kwr : List SearchItem) : ℚ :=
  minQ (kwr.map (fun r => r.rank.getD 0))

def rankRangeOf (kwr : List SearchItem) : ℚ :=
  if kwr.isEmpty then 1
  else if maxQ (kwr.map (fun r => r.rank.getD 0)) ≠ rankMinOf kwr then
    maxQ (kwr.map (fun r => r.rank.getD 0)) - rankMinOf kwr
  else 1

/-- `1.0 - ((rank - min_rank) / rank_range if rank_range > 0 else 0.0)`
(lower rank is better, so the normalized rank is inverted). -/
def kwNormScore (kwr : List SearchItem) (x : ℚ) : ℚ :=
  1 - (if rankRangeOf kwr > 0 then (x - rankMinOf kwr) / rankRangeOf kwr else 0)

/-- A Python dict built as `{r["chunk_id"]: r for r in l}`: the last entry
with the key wins. -/
def lookupLast (l : List SearchItem) (cid : Nat) : Option SearchItem :=
  (l.filter (fun r => r.chunk_id == cid)).getLast?

/-- One iteration of the merge loop of `HybridSearch.search` for a chunk id
in the union: a missing engine contributes exactly 0; the carried record
prefers the semantic one (`semantic_map.get(chunk_id) or
keyword_map[chunk_id]` — the id is drawn from the union, so the fallback
lookup cannot miss). -/
def mergeOne (sw kw : ℚ) (sem kwr : List SearchItem) (cid : Nat) : SearchItem :=
  let semScore := match lookupLast sem cid with
    | some r => semNormScore sem (r.similarity.getD 0)
    | none => 0
  let kwScore := match lookupLast kwr cid with
    | some r => kwNormScore kwr (r.rank.getD 0)
    | none => 0
  let base := match lookupLast sem cid with
    | some r => r
    | none => (lookupLast kwr cid).getD defaultItem
  { base with
    combined_score := some (sw * semScore + kw * kwScore),
    semantic_score := some semScore,
    keyword_score := some kwScore }

/-- The weight normalization of `HybridSearch.__init__`. -/
def normWeights (sw kw : ℚ) : ℚ × ℚ :=
  if sw + kw > 0 then (sw / (sw + kw), kw / (sw + kw)) else (sw, kw)

/-- `HybridSearch.search`.  The union of chunk ids is a Python set, whose
iteration order is unspecified; it is modelled as first-occurrence order
(`eraseDups`) — no claim depends on the tie order it induces. -/
def hybridSearch (simO : List Nat → List Nat → ℚ) (ftsO : Str → Nat → Option ℚ)
    (st : DBState) (q : Str) (qe : List Nat) (limit : Nat)
    (semantic_threshold : ℚ) (f : Filters) (sw kw : ℚ) : List SearchItem :=
  let w := normWeights sw kw
  let sem := semanticSearch simO st qe (limit * 2) semantic_threshold f
  let kwr := fullTextSearch ftsO st q (limit * 2) f
  let allIds := (sem.map SearchItem.chunk_id ++ kwr.map SearchItem.chunk_id).eraseDups
  let merged := allIds.map (mergeOne w.1 w.2 sem kwr)
  (merged.insertionSort
    (fun a b => (a.combined_score.getD 0) ≥ (b.combined_score.getD 0))).take limit

/-!
## MultiPassRetriever (src/backend/services/search.py)
-/

/-- `_pass_a_vector_search`: hybrid search under the caller filters merged
over `{"client_id": client_id}` (a `client_id` key in the filters dict wins,
as `dict.update` does), with the fixed 0.3 semantic threshold. -/
def passAVectorSearch (simO : List Nat → List Nat → ℚ)
    (ftsO : Str → Nat → Option ℚ) (st : DBState) (q : Str) (qe : List Nat)
    (client_id : Str) (maxInit : Nat) (f : Filters) (sw kw : ℚ) :
    List SearchItem :=
  hybridSearch simO ftsO st q qe maxInit (3 / 10)
    { f with client_id := some (f.client_id.getD client_id) } sw kw

def paymentWords : List Str :=
  ["payment".toList, "paid".toList, "pay".toList, "transaction".toList,
   "amount".toList]

def isPaymentQuery (q : Str) : Bool :=
  paymentWords.any (fun w => containsSub w (lowerStr q))

/-- The sort/threshold key of pass B:
`result.get("similarity", 0) or result.get("combined_score", 0)`
(Python `or`: a 0.0 similarity falls through to the combined score). -/
def scoreOf (r : SearchItem) : ℚ :=
  if r.similarity.getD 0 ≠ 0 then r.similarity.getD 0 else r.combined_score.getD 0

def allowedPaymentTypes : List Str :=
  ["table_row".toList, "invoice_block".toList, "paragraph".toList]

/-- Whether a result has a (truthy) period. -/
def periodTruthy : Option Str → Bool
  | some p => !p.isEmpty
  | none => false

/-- The entity/score tail of the pass-B keep decision. -/
def passBTail (q : Str) (r : SearchItem) : Bool :=
  if hasEntityMatches q r then true else scoreOf r ≥ 2 / 5

/-- The keep decision of one `_pass_b_filtering` loop iteration, mirroring
the `continue` chain.  In the payment-intent branch the source reads
`result.get("metadata", {})` without the `or {}` guard used elsewhere: a
result whose metadata key holds `None` makes `.get` raise AttributeError
(`none` here), which aborts the whole pass.
(`is_tds_query` and `is_invoice_query` are computed by the source but never
used, so they are not modelled.) -/
def passBKeep (q : Str) (f : Filters) (hints : List Str) (isPayment : Bool)
    (r : SearchItem) : Option Bool :=
  if (match f.doc_type with
      | some dt => !(r.doc_type == some dt) | none => false) then some false
  else if (!hints.isEmpty && periodTruthy r.period)
      && !(periodMatches (r.period.getD []) hints) then some false
  else if isPayment then
    match r.metadata with
    | none => none
    | some m =>
      if !(allowedPaymentTypes.contains (m.chunk_type.getD []))
          && !(containsSub ("payment".toList) (lowerStr r.text)) then some false
      else some (passBTail q r)
  else some (passBTail q r)

def passBGo (q : Str) (f : Filters) (hints : List Str) (isPayment : Bool) :
    List SearchItem → Option (List SearchItem)
  | [] => some []
  | r :: rest =>
    match passBKeep q f hints isPayment r with
    | none => none
    | some k =>
      match passBGo q f hints isPayment rest with
      | none => none
      | some tail => some (if k then r :: tail else tail)

/-- `_pass_b_filtering`: filter, then stable sort by score descending. -/
def passBFiltering (results : List SearchItem) (q : Str) (f : Filters) :
    Option (List SearchItem) :=
  (passBGo q f (extractTimeHints q) (isPaymentQuery q) results).map
    (fun l => l.insertionSort (fun a b => scoreOf a ≥ scoreOf b))

/-- Expansion helpers return plain records with no scores. -/
def mkPlainItem (st : DBState) (r : ChunkRow) : SearchItem :=
  ⟨r.id, r.document_id, r.chunk_index, r.text, none, none, none, none, none,
   r.metadata,
   (docOf st r.document_id).map DocRow.client_id,
   (docOf st r.document_id).bind DocRow.period,
   (docOf st r.document_id).bind DocRow.category,
   (docOf st r.document_id).bind DocRow.doc_type⟩

/-- `_get_neighboring_chunks` (window 2): same document, same client, same
json page, chunk_index within ±2, excluding the row the scalar subquery
finds at (document, index); ordered by chunk_index, LIMIT window*2. -/
def getNeighboringChunks (st : DBState) (document_id chunk_index page : Nat)
    (client_id : Str) : List SearchItem :=
  let sub := (st.chunks.find? (fun c =>
    c.document_id == document_id && c.chunk_index == chunk_index)).map ChunkRow.id
  let rows := st.chunks.filter (fun c =>
    c.document_id == document_id &&
    (match docOf st c.document_id with
      | some d => d.client_id == client_id | none => false) &&
    (match c.metadata with | some m => m.page == some page | none => false) &&
    (decide ((chunk_index : Int) - 2 ≤ (c.chunk_index : Int))
      && decide ((c.chunk_index : Int) ≤ (chunk_index : Int) + 2)) &&
    (match sub with | some sid => !(c.id == sid) | none => false))
  ((rows.insertionSort (fun a b => a.chunk_index ≤ b.chunk_index)).take 4).map
    (mkPlainItem st)

/-- `_get_table_headers`: the table's row 0 chunk, LIMIT 1 (no ORDER BY: the
scan order is the table order). -/
def getTableHeaders (st : DBState) (document_id table_index : Nat)
    (client_id : Str) : List SearchItem :=
  ((st.chunks.filter (fun c =>
      c.document_id == document_id &&
      (match docOf st c.document_id with
        | some d => d.client_id == client_id | none => false) &&
      (match c.metadata with
        | some m => m.table_index == some table_index && m.row_index == some 0
        | none => false))).take 1).map (mkPlainItem st)

/-- `_get_related_vendor_chunks`: same client, vendor metadata equal or text
LIKE `%vendor%` (SQLite LIKE is ASCII case-insensitive), other documents
only; ordered by chunk_index, LIMIT 3. -/
def getRelatedVendorChunks (st : DBState) (vendor : Str) (document_id : Nat)
    (client_id : Str) : List SearchItem :=
  (((st.chunks.filter (fun c =>
      (match docOf st c.document_id with
        | some d => d.client_id == client_id | none => false) &&
      ((match c.metadata with
        | some m => m.vendor == some vendor | none => false) ||
        containsSub (lowerStr vendor) (lowerStr c.text)) &&
      !(c.document_id == document_id))).insertionSort
    (fun a b => a.chunk_index ≤ b.chunk_index)).take 3).map (mkPlainItem st)

/-- Append each new item whose chunk id is unseen, tracking the seen set. -/
def addItems (exp : List SearchItem) (seen : List Nat)
    (new : List SearchItem) : List SearchItem × List Nat :=
  new.foldl (fun acc item =>
    if acc.2.contains item.chunk_id then acc
    else (acc.1 ++ [item], acc.2 ++ [item.chunk_id])) (exp, seen)

/-- The loop of `_pass_c_expansion`: per surviving result add (deduplicated)
the result itself, its same-page neighbours (when the page is truthy), its
table header (for truthy table_index on a table_row), and up to 3
same-vendor chunks; break once `limit` is reached; truncate to `limit`. -/
def passCGo (st : DBState) (client_id : Str) (limit : Nat) :
    List SearchItem → List SearchItem → List Nat → List SearchItem
  | [], exp, _ => exp.take limit
  | r :: rest, exp, seen =>
    let s1 := if seen.contains r.chunk_id then (exp, seen)
      else (exp ++ [r], seen ++ [r.chunk_id])
    let meta := r.metadata.getD emptyMeta
    let s2 := match meta.page with
      | some p =>
        if p ≠ 0 then
          addItems s1.1 s1.2
            (getNeighboringChunks st r.document_id r.chunk_index p client_id)
        else s1
      | none => s1
    let s3 := if meta.chunk_type == some ("table_row".toList) then
        match meta.table_index with
        | some t =>
          if t ≠ 0 then
            addItems s2.1 s2.2 (getTableHeaders st r.document_id t client_id)
          else s2
        | none => s2
      else s2
    let vOpt := match meta.vendor with
      | some v => if v.isEmpty then extractVendorFromText r.text else some v
      | none => extractVendorFromText r.text
    let s4 := match vOpt with
      | some v =>
        addItems s3.1 s3.2 (getRelatedVendorChunks st v r.document_id client_id)
      | none => s3
    if s4.1.length ≥ limit then s4.1.take limit
    else passCGo st client_id limit rest s4.1 s4.2

def passCExpansion (st : DBState) (results : List SearchItem)
    (client_id : Str) (limit : Nat) : List SearchItem :=
  passCGo st client_id limit results [] []

/-!
## Context cache (src/backend/services/cache.py)

`Cache._make_key` hashes the canonical JSON of (prefix, query, filters); the
key is modelled as the pair itself (md5 collisions are not modelled).  Time
is a rational parameter `now`.
-/

abbrev CacheState := List ((Str × Filters) × (List SearchItem × ℚ))

/-- `Cache.get` through `ContextCache.get`: a hit within the TTL returns the
stored bundle; an expired entry is deleted and misses. -/
def cacheGet (c : CacheState) (now : ℚ) (k : Str × Filters) :
    Option (List SearchItem) × CacheState :=
  match c.find? (fun e => e.1 == k) with
  | none => (none, c)
  | some e =>
    if now > e.2.2 then (none, c.filter (fun x => !(x.1 == k)))
    else (some e.2.1, c)

/-- `Cache.set` through `ContextCache.set` (ttl 1800 s for context). -/
def cacheSet (c : CacheState) (now : ℚ) (k : Str × Filters)
    (v : List SearchItem) (ttl : ℚ) : CacheState :=
  c.filter (fun x => !(x.1 == k)) ++ [(k, (v, now + ttl))]

/-- `MultiPassRetriever.retrieve_context`.  `cacheEnabled` models
`CACHE_AVAILABLE and os.getenv("ENABLE_CACHE", "true") == "true"`; the
weights `sw`/`kw` are the retriever's constructor arguments (default
0.7/0.3).  The result is the bundle plus the updated cache; `none` models
the AttributeError escaping from pass B. -/
def retrieveContext (simO : List Nat → List Nat → ℚ)
    (ftsO : Str → Nat → Option ℚ) (cacheEnabled useCache : Bool)
    (cache : CacheState) (now : ℚ) (st : DBState) (q : Str) (qe : List Nat)
    (client_id : Str) (limit : Nat) (f : Filters) (maxInit : Nat)
    (sw kw : ℚ) : Option (List SearchItem × CacheState) :=
  let key := (q, f)
  let hit := if useCache && cacheEnabled then cacheGet cache now key
    else (none, cache)
  match hit.1 with
  | some v => some (v, hit.2)
  | none =>
    let initial := passAVectorSearch simO ftsO st q qe client_id maxInit f sw kw
    if initial.isEmpty then some ([], hit.2)
    else
      match passBFiltering initial q f with
      | none => none
      | some filtered =>
        if filtered.isEmpty then some ([], hit.2)
        else
          let expanded := passCExpansion st filtered client_id limit
          let final := expanded.take limit
          let cache2 := if useCache && cacheEnabled then
              cacheSet hit.2 now key final 1800
            else hit.2
          some (final, cache2)

/-!
### Claim C2 — the entity override in pass B
-/

/-- Query containing a 15-character GSTIN-like token and a year hint. -/
def c2query : Str := "27ABCDE1234F1Z5 2023".toList

def c2ents : Entities :=
  { emptyEntities with
      gstin_numbers := ["27ABCDE1234F1Z5".toList] }

def c2meta : Meta :=
  { emptyMeta with
      entities := some c2ents }

/-- A low-scoring candidate whose extracted entities exactly contain the
query's GSTIN token, but whose document period does not match the query's
year hint. -/
def c2cand : SearchItem :=
  { defaultItem with
      chunk_id := 5
      similarity := some 0
      period := some ("2024-25".toList)
      metadata := some c2meta }

/-- C2, counterexample: the claim "every candidate with an exact entity
match is kept in pass B" is false, because the entity override in
`_pass_b_filtering` sits after the doc-type/period/payment filters: a
candidate whose extracted entities contain the query's 15-character token is
nevertheless discarded when the query carries a time hint that its document
period does not match. -/
theorem C2_counterexample :
    hasEntityMatches c2query c2cand = true ∧
    scoreOf c2cand < 2 / 5 ∧
    passBFiltering [c2cand] c2query noFilters = some [] := by
  refine ⟨by decide, ?_, by decide⟩
  have h : scoreOf c2cand = 0 := by decide
  rw [h]
  norm_num

theorem passBGo_mem (q : Str) (f : Filters) (hints : List Str)
    (isPayment : Bool) :
    ∀ (results out : List SearchItem) (r : SearchItem), r ∈ results →
      passBKeep q f hints isPayment r = some true →
      passBGo q f hints isPayment results = some out → r ∈ out := by
  intro results
  induction results with
  | nil =>
    intro out r hr
    exact absurd hr (List.not_mem_nil r)
  | cons a rest ih =>
    intro out r hr hkeep hgo
    rw [passBGo] at hgo
    rcases hk : passBKeep q f hints isPayment a with _ | k
    · rw [hk] at hgo
      exact absurd hgo (by simp)
    · rcases hrest : passBGo q f hints isPayment rest with _ | tail
      · simp only [hk, hrest] at hgo
        exact absurd hgo (by simp)
      · simp only [hk, hrest] at hgo
        have hout : out = if k then a :: tail else tail := by
          simpa using hgo.symm
        rcases List.mem_cons.mp hr with rfl | hr2
        · rw [hkeep] at hk
          have hkt : k = true := by simpa using hk
          subst hkt
          rw [hout, if_pos rfl]
          exact List.mem_cons_self _ _
        · have htail : r ∈ tail := ih tail r hr2 hkeep hrest
          rw [hout]
          split
          · exact List.mem_cons_of_mem _ htail
          · exact htail

/-- C2 (amended): the entity override bypasses only the similarity floor.
A candidate with an exact entity match (PAN, 15-character GSTIN, or invoice
number from the query) is kept in pass B's output regardless of its score,
provided it also passes the earlier doc-type, period, and payment-intent
filters (and the pass completes): the entity check sits after those
`continue`s in the loop. -/
theorem C2_amended (results : List SearchItem) (q : Str) (f : Filters)
    (out : List SearchItem) (r : SearchItem) (hr : r ∈ results)
    (hdoc : (match f.doc_type with
      | some dt => !(r.doc_type == some dt) | none => false) = false)
    (hper : ((!(extractTimeHints q).isEmpty && periodTruthy r.period)
        && !(periodMatches (r.period.getD []) (extractTimeHints q))) = false)
    (hpay : isPaymentQuery q = true → ∃ m, r.metadata = some m ∧
        (allowedPaymentTypes.contains (m.chunk_type.getD []) = true ∨
         containsSub ("payment".toList) (lowerStr r.text) = true))
    (hent : hasEntityMatches q r = true)
    (hout : passBFiltering results q f = some out) :
    r ∈ out := by
  have hkeep : passBKeep q f (extractTimeHints q) (isPaymentQuery q) r
      = some true := by
    rw [passBKeep, if_neg (by simp [hdoc]), if_neg (by simp [hper])]
    have htail : passBTail q r = true := by
      rw [passBTail, if_pos hent]
    by_cases hp : isPaymentQuery q = true
    · rw [if_pos hp]
      obtain ⟨m, hm, hcond⟩ := hpay hp
      rw [hm]
      have hnot : (!(allowedPaymentTypes.contains (m.chunk_type.getD []))
          && !(containsSub ("payment".toList) (lowerStr r.text))) = false := by
        rcases hcond with hc | hc
        · simp only [hc, Bool.not_true, Bool.false_and]
        · simp only [hc, Bool.not_true, Bool.and_false]
      show (if (!(allowedPaymentTypes.contains (m.chunk_type.getD []))
          && !(containsSub ("payment".toList) (lowerStr r.text))) = true
        then some false else some (passBTail q r)) = some true
      rw [hnot, if_neg (by simp), htail]
    · rw [if_neg hp, htail]
  rw [passBFiltering] at hout
  rcases hgo : passBGo q f (extractTimeHints q) (isPaymentQuery q) results
      with _ | l
  · rw [hgo] at hout
    exact absurd hout (by simp)
  · rw [hgo] at hout
    have hl : out = l.insertionSort (fun a b => scoreOf a ≥ scoreOf b) := by
      simpa using hout.symm
    have hmem := passBGo_mem q f (extractTimeHints q) (isPaymentQuery q)
      results l r hr hkeep hgo
    rw [hl]
    exact (List.perm_insertionSort _ _).mem_iff.mpr hmem

/-- A candidate for the witness: entity match, matching period, score below
the floor. -/
def c2wcand : SearchItem :=
  { defaultItem with
      chunk_id := 6
      similarity := some 0
      period := some ("2023-24".toList)
      metadata := some c2meta }

/-- Witness for `C2_amended`: the period now matches the hint, so the
entity-matched zero-score candidate survives pass B. -/
theorem C2_amended_witness : c2wcand ∈ [c2wcand] :=
  C2_amended [c2wcand] c2query noFilters [c2wcand] c2wcand (by decide)
    (by decide) (by decide) (fun h => absurd h (by decide)) (by decide)
    (by decide)

/-!
### Claim C4 — single-engine chunks in the hybrid merge
-/

theorem eraseDups_loop_subset {α} [BEq α] (as : List α) :
    ∀ (bs : List α) (a : α), a ∈ List.eraseDups.loop as bs → a ∈ as ∨ a ∈ bs := by
  induction as with
  | nil =>
    intro bs a ha
    right
    rw [List.eraseDups.loop] at ha
    exact (List.mem_reverse).mp ha
  | cons x as ih =>
    intro bs a ha
    rw [List.eraseDups.loop] at ha
    cases helem : bs.elem x
    · simp only [helem] at ha
      rcases ih (x :: bs) a ha with h | h
      · exact Or.inl (List.mem_cons_of_mem _ h)
      · rcases List.mem_cons.mp h with rfl | h2
        · exact Or.inl (List.mem_cons_self _ _)
        · exact Or.inr h2
    · simp only [helem] at ha
      rcases ih bs a ha with h | h
      · exact Or.inl (List.mem_cons_of_mem _ h)
      · exact Or.inr h

theorem mem_of_mem_eraseDups {α} [BEq α] (l : List α) (a : α)
    (h : a ∈ l.eraseDups) : a ∈ l := by
  rw [List.eraseDups] at h
  rcases eraseDups_loop_subset l [] a h with h1 | h1
  · exact h1
  · exact absurd h1 (List.not_mem_nil a)

theorem lookupLast_chunk_id (l : List SearchItem) (cid : Nat) (s : SearchItem)
    (h : lookupLast l cid = some s) : s.chunk_id = cid := by
  rw [lookupLast] at h
  have hmem : s ∈ l.filter (fun r => r.chunk_id == cid) :=
    List.mem_of_mem_getLast? h
  simpa using (List.mem_filter.mp hmem).2

theorem lookupLast_some_mem (l : List SearchItem) (cid : Nat) (s : SearchItem)
    (h : lookupLast l cid = some s) : cid ∈ l.map SearchItem.chunk_id := by
  rw [lookupLast] at h
  have hmem : s ∈ l.filter (fun r => r.chunk_id == cid) :=
    List.mem_of_mem_getLast? h
  obtain ⟨h1, h2⟩ := List.mem_filter.mp hmem
  exact List.mem_map.mpr ⟨s, h1, by simpa using h2⟩

theorem lookupLast_eq_none (l : List SearchItem) (cid : Nat)
    (h : cid ∉ l.map SearchItem.chunk_id) : lookupLast l cid = none := by
  rw [lookupLast]
  have he : l.filter (fun r => r.chunk_id == cid) = [] := by
    rw [List.filter_eq_nil_iff]
    intro a ha hbeq
    exact h (List.mem_map.mpr ⟨a, ha, by simpa using hbeq⟩)
  rw [he]
  rfl

theorem lookupLast_mem_some (l : List SearchItem) (cid : Nat)
    (h : cid ∈ l.map SearchItem.chunk_id) :
    ∃ s, lookupLast l cid = some s := by
  obtain ⟨a, ha, hac⟩ := List.mem_map.mp h
  have hne : l.filter (fun r => r.chunk_id == cid) ≠ [] := by
    intro he
    have hmem : a ∈ l.filter (fun r => r.chunk_id == cid) :=
      List.mem_filter.mpr ⟨ha, by simpa using hac⟩
    rw [he] at hmem
    exact List.not_mem_nil a hmem
  obtain ⟨s, hs⟩ := Option.isSome_iff_exists.mp (List.getLast?_isSome.mpr hne)
  exact ⟨s, hs⟩

theorem mergeOne_sem_only (sw kw : ℚ) (sem kwr : List SearchItem) (cid : Nat)
    (s : SearchItem) (hs : lookupLast sem cid = some s)
    (hk : lookupLast kwr cid = none) :
    mergeOne sw kw sem kwr cid =
      { s with
        combined_score :=
          some (sw * semNormScore sem (s.similarity.getD 0) + kw * 0),
        semantic_score := some (semNormScore sem (s.similarity.getD 0)),
        keyword_score := some 0 } := by
  simp only [mergeOne, hs, hk]

theorem mergeOne_kw_only (sw kw : ℚ) (sem kwr : List SearchItem) (cid : Nat)
    (k : SearchItem) (hs : lookupLast sem cid = none)
    (hk : lookupLast kwr cid = some k) :
    mergeOne sw kw sem kwr cid =
      { k with
        combined_score := some (sw * 0 + kw * kwNormScore kwr (k.rank.getD 0)),
        semantic_score := some 0,
        keyword_score := some (kwNormScore kwr (k.rank.getD 0)) } := by
  simp only [mergeOne, hs, hk, Option.getD_some]

/-- C4: confirmed.  In `HybridSearch.search`, every returned item whose chunk
id lies in exactly one engine's result set carries a score of exactly 0 for
the missing engine, and its combined score is exactly the present engine's
normalized weight times that engine's min-max-normalized score for the item
the merge looked up. -/
theorem C4_confirmed (simO : List Nat → List Nat → ℚ)
    (ftsO : Str → Nat → Option ℚ) (st : DBState) (q : Str) (qe : List Nat)
    (limit : Nat) (thr : ℚ) (f : Filters) (sw kw : ℚ) (r : SearchItem)
    (hr : r ∈ hybridSearch simO ftsO st q qe limit thr f sw kw) :
    (r.chunk_id ∈ (semanticSearch simO st qe (limit * 2) thr f).map
        SearchItem.chunk_id →
     r.chunk_id ∉ (fullTextSearch ftsO st q (limit * 2) f).map
        SearchItem.chunk_id →
     r.keyword_score = some 0 ∧
     ∃ s, lookupLast (semanticSearch simO st qe (limit * 2) thr f) r.chunk_id
          = some s ∧
       r.semantic_score = some (semNormScore
         (semanticSearch simO st qe (limit * 2) thr f) (s.similarity.getD 0)) ∧
       r.combined_score = some ((normWeights sw kw).1 * semNormScore
         (semanticSearch simO st qe (limit * 2) thr f) (s.similarity.getD 0)))
    ∧
    (r.chunk_id ∈ (fullTextSearch ftsO st q (limit * 2) f).map
        SearchItem.chunk_id →
     r.chunk_id ∉ (semanticSearch simO st qe (limit * 2) thr f).map
        SearchItem.chunk_id →
     r.semantic_score = some 0 ∧
     ∃ k, lookupLast (fullTextSearch ftsO st q (limit * 2) f) r.chunk_id
          = some k ∧
       r.keyword_score = some (kwNormScore
         (fullTextSearch ftsO st q (limit * 2) f) (k.rank.getD 0)) ∧
       r.combined_score = some ((normWeights sw kw).2 * kwNormScore
         (fullTextSearch ftsO st q (limit * 2) f) (k.rank.getD 0))) := by
  simp only [hybridSearch] at hr
  have hmem0 := List.mem_of_mem_take hr
  have hmem := (List.perm_insertionSort
    (fun a b : SearchItem =>
      (a.combined_score.getD 0) ≥ (b.combined_score.getD 0)) _).mem_iff.mp hmem0
  obtain ⟨cid, hcid, hrr⟩ := List.mem_map.mp hmem
  have hcid2 := mem_of_mem_eraseDups _ cid hcid
  rcases hls : lookupLast (semanticSearch simO st qe (limit * 2) thr f) cid
      with _ | s
  · rcases hlk : lookupLast (fullTextSearch ftsO st q (limit * 2) f) cid
        with _ | k
    · exfalso
      rcases List.mem_append.mp hcid2 with h0 | h0
      · obtain ⟨s', hs'⟩ := lookupLast_mem_some _ _ h0
        rw [hls] at hs'
        exact Option.noConfusion hs'
      · obtain ⟨k', hk'⟩ := lookupLast_mem_some _ _ h0
        rw [hlk] at hk'
        exact Option.noConfusion hk'
    · have hkc := lookupLast_chunk_id _ _ _ hlk
      have hre := mergeOne_kw_only (normWeights sw kw).1 (normWeights sw kw).2
        _ _ cid k hls hlk
      rw [hre] at hrr
      have hrc : r.chunk_id = cid := by
        rw [← hrr]
        exact hkc
      constructor
      · intro hin hout
        exfalso
        rw [hrc] at hin
        obtain ⟨s', hs'⟩ := lookupLast_mem_some _ _ hin
        rw [hls] at hs'
        exact Option.noConfusion hs'
      · intro hin hout
        refine ⟨by rw [← hrr], k, ?_, by rw [← hrr], ?_⟩
        · rw [hrc]
          exact hlk
        · rw [← hrr]
          simp only [mul_zero, zero_add]
  · have hsc := lookupLast_chunk_id _ _ _ hls
    have hrc : r.chunk_id = cid := by
      rw [← hrr, mergeOne, hls]
      exact hsc
    constructor
    · intro hin hout
      rw [hrc] at hout
      have hlk : lookupLast (fullTextSearch ftsO st q (limit * 2) f) cid
          = none := lookupLast_eq_none _ _ hout
      have hre := mergeOne_sem_only (normWeights sw kw).1 (normWeights sw kw).2
        _ _ cid s hls hlk
      rw [hre] at hrr
      refine ⟨by rw [← hrr], s, ?_, by rw [← hrr], ?_⟩
      · rw [hrc]
        exact hls
      · rw [← hrr]
        simp only [mul_zero, add_zero]
    · intro hin hout
      exfalso
      rw [hrc] at hin
      obtain ⟨k', hk'⟩ := lookupLast_mem_some _ _ hin
      exact hout (by rw [hrc]; exact lookupLast_some_mem _ _ _ hls)

/-- A one-chunk store for exercising the hybrid merge: the chunk has an
embedding (so it is a semantic hit) and no FTS entry (so the keyword engine
returns nothing). -/
def c4st : DBState := ⟨[⟨1, 5, 10, 0, "t".toList, some [0], none⟩], [], [], 2, 1⟩

def c4semItem : SearchItem :=
  ⟨5, 10, 0, "t".toList, some 1, none, none, none, none, none, none, none,
   none, none⟩

def c4out : SearchItem :=
  { c4semItem with
      combined_score := some 0
      semantic_score := some 0
      keyword_score := some 0 }

/-- Witness for `C4_confirmed`: a semantic-only chunk in a concrete run of
the hybrid engine carries keyword score exactly 0. -/
theorem C4_confirmed_witness :
    c4out ∈ hybridSearch (fun _ _ => 1) (fun _ _ => none) c4st [] [] 10 0
        noFilters (7 / 10) (3 / 10) ∧
    c4out.keyword_score = some 0 := by
  have hsem : semanticSearch (fun _ _ => 1) c4st [] 20 0 noFilters
      = [c4semItem] := by
    norm_num [semanticSearch, c4st, semFilterOk, noFilters, docOf, mkSemItem,
      List.insertionSort, c4semItem]
  have hfts : fullTextSearch (fun _ _ => none) c4st [] 20 noFilters = [] := rfl
  have hl1 : lookupLast [c4semItem] c4semItem.chunk_id = some c4semItem := rfl
  have hl2 : lookupLast [] c4semItem.chunk_id = none := rfl
  have hsim : c4semItem.similarity.getD 0 = 1 := rfl
  have hhyb : hybridSearch (fun _ _ => 1) (fun _ _ => none) c4st [] [] 10 0
      noFilters (7 / 10) (3 / 10) = [c4out] := by
    simp only [hybridSearch]
    simp only [hsem, hfts]
    norm_num [hl1, hl2, hsim, normWeights, mergeOne, semNormScore, semRangeOf,
      semMinOf, maxQ, minQ, List.eraseDups, List.eraseDups.loop, List.elem,
      List.insertionSort, List.orderedInsert, c4out]
  have hmem : c4out ∈ hybridSearch (fun _ _ => 1) (fun _ _ => none) c4st [] []
      10 0 noFilters (7 / 10) (3 / 10) := by
    rw [hhyb]
    exact List.mem_singleton.mpr rfl
  have hin : c4out.chunk_id ∈ (semanticSearch (fun _ _ => 1) c4st [] (10 * 2)
      0 noFilters).map SearchItem.chunk_id := by
    rw [show (10 * 2 : Nat) = 20 from rfl, hsem]
    simp [c4out, c4semItem]
  have hout : c4out.chunk_id ∉ (fullTextSearch (fun _ _ => none) c4st []
      (10 * 2) noFilters).map SearchItem.chunk_id := by
    rw [show (10 * 2 : Nat) = 20 from rfl, hfts]
    simp
  refine ⟨hmem, ?_⟩
  exact ((C4_confirmed (fun _ _ => 1) (fun _ _ => none) c4st [] [] 10 0
    noFilters (7 / 10) (3 / 10) c4out hmem).1 hin hout).1

/-!
### Claim C3 — size bound and distinctness of the retrieved context
-/

/-- The pass-C loop invariant: the seen set is exactly the chunk-id image of
the accumulated expansion, with no duplicates. -/
def StInv (p : List SearchItem × List Nat) : Prop :=
  p.2 = p.1.map SearchItem.chunk_id ∧ p.2.Nodup

theorem StInv_foldl : ∀ (new : List SearchItem)
    (p : List SearchItem × List Nat), StInv p →
    StInv (new.foldl (fun acc item =>
      if acc.2.contains item.chunk_id then acc
      else (acc.1 ++ [item], acc.2 ++ [item.chunk_id])) p) := by
  intro new
  induction new with
  | nil =>
    intro p h
    exact h
  | cons x xs ih =>
    intro p h
    rw [List.foldl_cons]
    apply ih
    show StInv (if p.2.contains x.chunk_id = true then p
      else (p.1 ++ [x], p.2 ++ [x.chunk_id]))
    by_cases hx : p.2.contains x.chunk_id = true
    · rwa [if_pos hx]
    · rw [if_neg hx]
      obtain ⟨h1, h2⟩ := h
      constructor
      · show p.2 ++ [x.chunk_id] = (p.1 ++ [x]).map SearchItem.chunk_id
        rw [List.map_append, ← h1, List.map_singleton]
      · show (p.2 ++ [x.chunk_id]).Nodup
        have hmem : x.chunk_id ∉ p.2 := by simpa using hx
        rw [List.nodup_append]
        refine ⟨h2, List.nodup_singleton _, ?_⟩
        intro a ha hb
        rw [List.mem_singleton] at hb
        exact hmem (hb ▸ ha)

theorem StInv_addItems (exp : List SearchItem) (seen : List Nat)
    (new : List SearchItem) (h : StInv (exp, seen)) :
    StInv (addItems exp seen new) :=
  StInv_foldl new (exp, seen) h

theorem StInv_step (exp : List SearchItem) (seen : List Nat) (r : SearchItem)
    (h : StInv (exp, seen)) :
    StInv (if seen.contains r.chunk_id = true then (exp, seen)
      else (exp ++ [r], seen ++ [r.chunk_id])) := by
  by_cases hx : seen.contains r.chunk_id = true
  · rwa [if_pos hx]
  · rw [if_neg hx]
    obtain ⟨h1, h2⟩ := h
    constructor
    · show seen ++ [r.chunk_id] = (exp ++ [r]).map SearchItem.chunk_id
      rw [List.map_append, ← h1, List.map_singleton]
    · show (seen ++ [r.chunk_id]).Nodup
      have hmem : r.chunk_id ∉ seen := by simpa using hx
      rw [List.nodup_append]
      refine ⟨h2, List.nodup_singleton _, ?_⟩
      intro a ha hb
      rw [List.mem_singleton] at hb
      exact hmem (hb ▸ ha)

theorem passCGo_spec (st : DBState) (client_id : Str) (limit : Nat)
    (results exp : List SearchItem) (seen : List Nat)
    (h1 : seen = exp.map SearchItem.chunk_id) (h2 : seen.Nodup) :
    (passCGo st client_id limit results exp seen).length ≤ limit ∧
    ((passCGo st client_id limit results exp seen).map
      SearchItem.chunk_id).Nodup := by
  revert h1 h2
  induction results, exp, seen using passCGo.induct st client_id limit with
  | case1 exp seen =>
    intro h1 h2
    have hred : passCGo st client_id limit [] exp seen = exp.take limit := by
      rw [passCGo]
    rw [hred]
    constructor
    · exact List.length_take_le _ _
    · rw [List.map_take]
      exact ((h1 ▸ h2 : (exp.map SearchItem.chunk_id).Nodup)).sublist
        (List.take_sublist _ _)
  | case2 r rest exp seen s1 meta s2 s3 vOpt s4 h =>
    intro h1 h2
    have hs1 : StInv s1 := StInv_step exp seen r ⟨h1, h2⟩
    have hs2 : StInv s2 := by
      show StInv (match meta.page with
        | some p =>
          if p ≠ 0 then addItems s1.1 s1.2
            (getNeighboringChunks st r.document_id r.chunk_index p client_id)
          else s1
        | none => s1)
      rcases meta.page with _ | p
      · exact hs1
      · show StInv (if p ≠ 0 then addItems s1.1 s1.2
            (getNeighboringChunks st r.document_id r.chunk_index p client_id)
          else s1)
        by_cases hp : p ≠ 0
        · rw [if_pos hp]
          exact StInv_addItems _ _ _ hs1
        · rw [if_neg hp]
          exact hs1
    have hs3 : StInv s3 := by
      show StInv (if (meta.chunk_type == some ("table_row".toList)) = true then
          match meta.table_index with
          | some t =>
            if t ≠ 0 then addItems s2.1 s2.2
              (getTableHeaders st r.document_id t client_id)
            else s2
          | none => s2
        else s2)
      by_cases hct : (meta.chunk_type == some ("table_row".toList)) = true
      · rw [if_pos hct]
        rcases meta.table_index with _ | t
        · exact hs2
        · show StInv (if t ≠ 0 then addItems s2.1 s2.2
              (getTableHeaders st r.document_id t client_id)
            else s2)
          by_cases ht : t ≠ 0
          · rw [if_pos ht]
            exact StInv_addItems _ _ _ hs2
          · rw [if_neg ht]
            exact hs2
      · rw [if_neg hct]
        exact hs2
    have hs4 : StInv s4 := by
      show StInv (match vOpt with
        | some v =>
          addItems s3.1 s3.2 (getRelatedVendorChunks st v r.document_id client_id)
        | none => s3)
      rcases vOpt with _ | v
      · exact hs3
      · exact StInv_addItems _ _ _ hs3
    have hred : passCGo st client_id limit (r :: rest) exp seen
        = s4.1.take limit := by
      show (if s4.1.length ≥ limit then s4.1.take limit
        else passCGo st client_id limit rest s4.1 s4.2) = s4.1.take limit
      rw [if_pos h]
    rw [hred]
    constructor
    · exact List.length_take_le _ _
    · rw [List.map_take]
      exact ((hs4.1 ▸ hs4.2 : (s4.1.map SearchItem.chunk_id).Nodup)).sublist
        (List.take_sublist _ _)
  | case3 r rest exp seen s1 meta s2 s3 vOpt s4 h ih =>
    intro h1 h2
    have hs1 : StInv s1 := StInv_step exp seen r ⟨h1, h2⟩
    have hs2 : StInv s2 := by
      show StInv (match meta.page with
        | some p =>
          if p ≠ 0 then addItems s1.1 s1.2
            (getNeighboringChunks st r.document_id r.chunk_index p client_id)
          else s1
        | none => s1)
      rcases meta.page with _ | p
      · exact hs1
      · show StInv (if p ≠ 0 then addItems s1.1 s1.2
            (getNeighboringChunks st r.document_id r.chunk_index p client_id)
          else s1)
        by_cases hp : p ≠ 0
        · rw [if_pos hp]
          exact StInv_addItems _ _ _ hs1
        · rw [if_neg hp]
          exact hs1
    have hs3 : StInv s3 := by
      show StInv (if (meta.chunk_type == some ("table_row".toList)) = true then
          match meta.table_index with
          | some t =>
            if t ≠ 0 then addItems s2.1 s2.2
              (getTableHeaders st r.document_id t client_id)
            else s2
          | none => s2
        else s2)
      by_cases hct : (meta.chunk_type == some ("table_row".toList)) = true
      · rw [if_pos hct]
        rcases meta.table_index with _ | t
        · exact hs2
        · show StInv (if t ≠ 0 then addItems s2.1 s2.2
              (getTableHeaders st r.document_id t client_id)
            else s2)
          by_cases ht : t ≠ 0
          · rw [if_pos ht]
            exact StInv_addItems _ _ _ hs2
          · rw [if_neg ht]
            exact hs2
      · rw [if_neg hct]
        exact hs2
    have hs4 : StInv s4 := by
      show StInv (match vOpt with
        | some v =>
          addItems s3.1 s3.2 (getRelatedVendorChunks st v r.document_id client_id)
        | none => s3)
      rcases vOpt with _ | v
      · exact hs3
      · exact StInv_addItems _ _ _ hs3
    have hred : passCGo st client_id limit (r :: rest) exp seen
        = passCGo st client_id limit rest s4.1 s4.2 := by
      show (if s4.1.length ≥ limit then s4.1.take limit
        else passCGo st client_id limit rest s4.1 s4.2)
        = passCGo st client_id limit rest s4.1 s4.2
      rw [if_neg h]
    rw [hred]
    exact ih hs4.1 hs4.2

theorem passCExpansion_spec (st : DBState) (results : List SearchItem)
    (client_id : Str) (limit : Nat) :
    (passCExpansion st results client_id limit).length ≤ limit ∧
    ((passCExpansion st results client_id limit).map
      SearchItem.chunk_id).Nodup :=
  passCGo_spec st client_id limit results [] [] rfl List.nodup_nil

/-- The query/state of the C3 counterexample: a pre-populated context cache
holding a two-element bundle under the query's key. -/
def c3q : Str := ['q']

def c3two : List SearchItem := [defaultItem, { defaultItem with chunk_id := 1 }]

def c3cache : CacheState := [((c3q, noFilters), (c3two, 1800))]

def c3st : DBState := ⟨[], [], [], 1, 0⟩

/-- C3, counterexample: `retrieve_context` is not bounded by `limit` on the
cache-hit path — the cached bundle is returned as-is, so a call with
`limit = 1` returns the 2-element bundle cached by an earlier call. -/
theorem C3_counterexample :
    ∃ out cache2,
      retrieveContext (fun _ _ => 0) (fun _ _ => none) true true c3cache 0
        c3st c3q [] [] 1 noFilters 30 (7 / 10) (3 / 10) = some (out, cache2) ∧
      out.length > 1 := by
  refine ⟨c3two, c3cache, ?_, by decide⟩
  have hget : cacheGet c3cache 0 (c3q, noFilters) = (some c3two, c3cache) := by
    rw [cacheGet]
    have hfind : c3cache.find? (fun e => e.1 == (c3q, noFilters))
        = some ((c3q, noFilters), (c3two, 1800)) := rfl
    rw [hfind]
    show (if (0 : ℚ) > (1800 : ℚ) then
        (none, c3cache.filter (fun x => !(x.1 == (c3q, noFilters))))
      else (some c3two, c3cache)) = (some c3two, c3cache)
    rw [if_neg (by norm_num)]
  simp only [retrieveContext, Bool.and_self, if_pos, hget]

/-- C3 (amended): the `limit` bound and chunk-id distinctness hold on every
computed (cache-miss or cache-disabled) path: pass C deduplicates by chunk
id against its seen set and the result is truncated to `limit`.  On a cache
hit the stored bundle is returned unchanged, so the guarantee holds only
relative to the limit of the call that populated the cache, not the current
call's limit. -/
theorem C3_amended (simO : List Nat → List Nat → ℚ)
    (ftsO : Str → Nat → Option ℚ) (cacheEnabled useCache : Bool)
    (cache : CacheState) (now : ℚ) (st : DBState) (q : Str) (qe : List Nat)
    (client_id : Str) (limit : Nat) (f : Filters) (maxInit : Nat) (sw kw : ℚ)
    (out : List SearchItem) (cache2 : CacheState)
    (hmiss : (useCache && cacheEnabled) = false ∨
      (cacheGet cache now (q, f)).1 = none)
    (h : retrieveContext simO ftsO cacheEnabled useCache cache now st q qe
      client_id limit f maxInit sw kw = some (out, cache2)) :
    out.length ≤ limit ∧ (out.map SearchItem.chunk_id).Nodup := by
  simp only [retrieveContext] at h
  have hhit : (if useCache && cacheEnabled then cacheGet cache now (q, f)
      else (none, cache)).1 = none := by
    rcases hmiss with hm | hm
    · rw [hm]
      simp
    · by_cases hb : (useCache && cacheEnabled) = true
      · rw [if_pos hb]
        exact hm
      · rw [if_neg hb]
  rw [hhit] at h
  by_cases hinit :
      (passAVectorSearch simO ftsO st q qe client_id maxInit f sw kw).isEmpty
  · simp only [hinit, if_true] at h
    have hout : out = [] := by
      have := (Option.some.injEq _ _).mp h
      exact (congrArg Prod.fst this).symm
    rw [hout]
    exact ⟨Nat.zero_le _, List.nodup_nil⟩
  · simp only [hinit, Bool.false_eq_true, if_false] at h
    rcases hB : passBFiltering
        (passAVectorSearch simO ftsO st q qe client_id maxInit f sw kw) q f
        with _ | filtered
    · rw [hB] at h
      exact absurd h (by simp)
    · rw [hB] at h
      by_cases hfil : filtered.isEmpty
      · simp only [hfil, if_true] at h
        have hout : out = [] := by
          have := (Option.some.injEq _ _).mp h
          exact (congrArg Prod.fst this).symm
        rw [hout]
        exact ⟨Nat.zero_le _, List.nodup_nil⟩
      · simp only [hfil, Bool.false_eq_true, if_false] at h
        have hout : out = (passCExpansion st filtered client_id limit).take
            limit := by
          have := (Option.some.injEq _ _).mp h
          exact (congrArg Prod.fst this).symm
        rw [hout]
        obtain ⟨hl, hn⟩ := passCExpansion_spec st filtered client_id limit
        constructor
        · exact le_trans (List.length_take_le _ _) le_rfl
        · rw [List.map_take]
          exact hn.sublist (List.take_sublist _ _)

/-- Witness for `C3_amended`: with caching off, a concrete call's bundle
respects the limit and has distinct ids. -/
theorem C3_amended_witness :
    retrieveContext (fun _ _ => 0) (fun _ _ => none) false false [] 0 c3st
        ['x'] [] [] 3 noFilters 30 0 0 = some ([], []) ∧
    (([] : List SearchItem).length ≤ 3 ∧
     ((([] : List SearchItem).map SearchItem.chunk_id)).Nodup) :=
  ⟨rfl,
   C3_amended (fun _ _ => 0) (fun _ _ => none) false false [] 0 c3st ['x'] []
     [] 3 noFilters 30 0 0 [] [] (Or.inl (by decide)) rfl⟩

/-!
### Claim C10 — cache keyed on (query, filters) only
-/

theorem retrieveContext_hit (simO : List Nat → List Nat → ℚ)
    (ftsO : Str → Nat → Option ℚ) (cache : CacheState) (now : ℚ)
    (st : DBState) (q : Str) (qe : List Nat) (client_id : Str) (limit : Nat)
    (f : Filters) (maxInit : Nat) (sw kw : ℚ) (v : List SearchItem)
    (c2 : CacheState) (h : cacheGet cache now (q, f) = (some v, c2)) :
    retrieveContext simO ftsO true true cache now st q qe client_id limit f
      maxInit sw kw = some (v, c2) := by
  simp only [retrieveContext, Bool.and_self, if_true, h]

/-- C10: confirmed.  The context-cache key is computed from the query text
and the filters dict alone, so a second `retrieve_context` call within the
TTL with the same query and filters — but arbitrary `client_id`, `limit`,
`max_initial_results`, store contents, embedding, weights, and engines —
returns the first call's cached bundle unchanged (and leaves the cache
unchanged). -/
theorem C10_confirmed (simO simO2 : List Nat → List Nat → ℚ)
    (ftsO ftsO2 : Str → Nat → Option ℚ) (st st2 : DBState) (now now2 : ℚ)
    (q : Str) (qe qe2 : List Nat) (client_id client_id2 : Str)
    (limit limit2 : Nat) (f : Filters) (maxInit maxInit2 : Nat)
    (sw kw sw2 kw2 : ℚ) (r1 : List SearchItem) (c1 : CacheState)
    (h1 : retrieveContext simO ftsO true true [] now st q qe client_id limit f
      maxInit sw kw = some (r1, c1))
    (hne : r1 ≠ [])
    (httl : now2 ≤ now + 1800) :
    retrieveContext simO2 ftsO2 true true c1 now2 st2 q qe2 client_id2 limit2
      f maxInit2 sw2 kw2 = some (r1, c1) := by
  simp only [retrieveContext, Bool.and_self, if_true, cacheGet,
    List.find?_nil] at h1
  by_cases hinit :
      (passAVectorSearch simO ftsO st q qe client_id maxInit f sw kw).isEmpty
  · simp only [hinit, if_true] at h1
    have : ([] : List SearchItem) = r1 :=
      congrArg Prod.fst ((Option.some.injEq _ _).mp h1)
    exact absurd this.symm hne
  · simp only [hinit, Bool.false_eq_true, if_false] at h1
    rcases hB : passBFiltering
        (passAVectorSearch simO ftsO st q qe client_id maxInit f sw kw) q f
        with _ | filtered
    · rw [hB] at h1
      exact absurd h1 (by simp)
    · rw [hB] at h1
      by_cases hfil : filtered.isEmpty
      · simp only [hfil, if_true] at h1
        have : ([] : List SearchItem) = r1 :=
          congrArg Prod.fst ((Option.some.injEq _ _).mp h1)
        exact absurd this.symm hne
      · simp only [hfil, Bool.false_eq_true, if_false] at h1
        have hpair := (Option.some.injEq _ _).mp h1
        have hfin : (passCExpansion st filtered client_id limit).take limit
            = r1 := congrArg Prod.fst hpair
        have hcs : cacheSet [] now (q, f)
            ((passCExpansion st filtered client_id limit).take limit) 1800
            = c1 := congrArg Prod.snd hpair
        have hc1 : c1 = [((q, f), (r1, now + 1800))] := by
          rw [← hcs, hfin]
          rfl
        have hget : cacheGet c1 now2 (q, f) = (some r1, c1) := by
          rw [hc1, cacheGet]
          have hfind : List.find? (fun e => e.1 == (q, f))
              [((q, f), (r1, now + 1800))]
              = some ((q, f), (r1, now + 1800)) := by
            apply List.find?_cons_of_pos
            simp
          rw [hfind]
          show (if now2 > now + 1800 then
              ((none : Option (List SearchItem)),
               ([((q, f), (r1, now + 1800))] : CacheState).filter
                 (fun x => !(x.1 == (q, f))))
            else (some r1, [((q, f), (r1, now + 1800))]))
            = (some r1, [((q, f), (r1, now + 1800))])
          rw [if_neg (not_lt.mpr httl)]
        exact retrieveContext_hit simO2 ftsO2 c1 now2 st2 q qe2 client_id2
          limit2 f maxInit2 sw2 kw2 r1 c1 hget

/-- A one-chunk, one-document store for a full retrieval run. -/
def c10q : Str := ['z']

def c10row : ChunkRow := ⟨1, 7, 10, 0, ['t'], some [0], none⟩

def c10doc : DocRow := ⟨10, ['c'], none, none, none⟩

def c10st : DBState := ⟨[c10row], [c10doc], [], 2, 1⟩

/-- The filters of pass A after merging in the caller's client id. -/
def c10f : Filters := ⟨none, some ['c'], none, none, none⟩

def c10sem : SearchItem :=
  ⟨7, 10, 0, ['t'], some 1, none, none, none, none, none, some ['c'], none,
   none, none⟩

def c10item : SearchItem :=
  { c10sem with
      combined_score := some 0
      semantic_score := some 0
      keyword_score := some 0 }

def c10cache : CacheState := [((c10q, noFilters), ([c10item], 1800))]

/-- Witness for `C10_confirmed`: a first call caches its one-chunk bundle;
a second call within the TTL with a different client id, limit, store and
engines returns that bundle unchanged. -/
theorem C10_confirmed_witness :
    retrieveContext (fun _ _ => 0) (fun _ _ => none) true true c10cache 1800
      ⟨[], [], [], 1, 0⟩ c10q [] ['d'] 1 noFilters 2 0 0
      = some ([c10item], c10cache) := by
  have hsem : semanticSearch (fun _ _ => 1) c10st [] 10 (3 / 10) c10f
      = [c10sem] := by
    norm_num [semanticSearch, c10st, c10row, c10doc, semFilterOk, c10f, docOf,
      mkSemItem, List.insertionSort, c10sem]
  have hfts : fullTextSearch (fun _ _ => none) c10st c10q 10 c10f = [] := rfl
  have hl1 : lookupLast [c10sem] c10sem.chunk_id = some c10sem := rfl
  have hl2 : lookupLast [] c10sem.chunk_id = none := rfl
  have hsim : c10sem.similarity.getD 0 = 1 := rfl
  have hhyb : hybridSearch (fun _ _ => 1) (fun _ _ => none) c10st c10q [] 5
      (3 / 10) c10f (7 / 10) (3 / 10) = [c10item] := by
    simp only [hybridSearch]
    simp only [hsem, hfts]
    norm_num [hl1, hl2, hsim, normWeights, mergeOne, semNormScore, semRangeOf,
      semMinOf, maxQ, minQ, List.eraseDups, List.eraseDups.loop, List.elem,
      List.insertionSort, List.orderedInsert, c10item]
  have hA : passAVectorSearch (fun _ _ => 1) (fun _ _ => none) c10st c10q []
      ['c'] 5 noFilters (7 / 10) (3 / 10) = [c10item] := by
    rw [passAVectorSearch]
    exact hhyb
  have hkeep : passBKeep c10q noFilters (extractTimeHints c10q)
      (isPaymentQuery c10q) c10item = some true := by
    rw [passBKeep]
    rw [if_neg (by decide)]
    rw [if_neg (by decide)]
    rw [if_neg (by decide)]
    rw [passBTail, if_neg (by decide)]
    have hsc : scoreOf c10item = 1 := by
      norm_num [scoreOf, c10item, c10sem]
    rw [hsc, decide_eq_true (by norm_num : (1 : ℚ) ≥ 2 / 5)]
  have hBgo : passBGo c10q noFilters (extractTimeHints c10q)
      (isPaymentQuery c10q) [c10item] = some [c10item] := by
    simp [passBGo, hkeep]
  have hB : passBFiltering [c10item] c10q noFilters = some [c10item] := by
    rw [passBFiltering, hBgo]
    rfl
  have hC : passCExpansion c10st [c10item] ['c'] 5 = [c10item] := by decide
  have hcall1 : retrieveContext (fun _ _ => 1) (fun _ _ => none) true true []
      0 c10st c10q [] ['c'] 5 noFilters 5 (7 / 10) (3 / 10)
      = some ([c10item], c10cache) := by
    simp only [retrieveContext, Bool.and_self, if_true, cacheGet,
      List.find?_nil]
    rw [hA]
    simp only [List.isEmpty_cons, Bool.false_eq_true, if_false, hB]
    norm_num [hC, cacheSet, c10cache]
  exact C10_confirmed (fun _ _ => 1) (fun _ _ => 0) (fun _ _ => none)
    (fun _ _ => none) c10st ⟨[], [], [], 1, 0⟩ 0 1800 c10q [] [] ['c'] ['d']
    5 1 noFilters 5 2 (7 / 10) (3 / 10) 0 0 [c10item] c10cache hcall1
    (by simp) (by norm_num)

end CaAi
